import Mathlib

/-!
# Verification of the TopLIS e-mobility time-series generator

A shallow embedding of `src/emob_timeseries.py` (module `emob_cluster_timeseries`):
the time-deviation generator, the schedule simulator for day trips and multi-day
trips, the year-long time-series builder, and the block consolidator that moves
energy demand to the end and rest energy to the start of each contiguous block
of positive available capacity.

Conventions of the embedding:
* clock times are minutes after midnight (`ℕ`), timestamps are absolute minutes
  from the start of the target year (`ℕ`);
* the table index of the pandas frame becomes a row number; row `r` sits at
  absolute minute `r * s` where `s` is the resolution in minutes (the `freq`
  string of the source, e.g. 60 for "1h");
* float arithmetic becomes exact `ℚ` arithmetic;
* the three columns of the frame become three `List ℚ` of equal length.
-/

set_option maxRecDepth 8000

namespace TopLIS

/-! ## Calendar utilities (`days_of_year`, `date.weekday`) -/

/-- Gregorian leap-year rule used by Python's `datetime.date`. -/
def isLeapYear (y : ℕ) : Bool := (y % 4 == 0 && y % 100 != 0) || y % 400 == 0

/-- Number of calendar days produced by `days_of_year(year)`. -/
def daysInYear (y : ℕ) : ℕ := if isLeapYear y then 366 else 365

/-- Weekday of January 1st of year `y` in Python's convention (Monday = 0),
computed by Gauss's formula. -/
def jan1Weekday (y : ℕ) : ℕ :=
  ((1 + 5 * ((y - 1) % 4) + 4 * ((y - 1) % 100) + 6 * ((y - 1) % 400)) % 7 + 6) % 7

/-- `date.weekday()` of day number `d` (0-based from Jan 1) of year `y`. -/
def weekdayOfDay (y d : ℕ) : ℕ := (jan1Weekday y + d) % 7

/-- The four boundary dates excluded by `build_cluster_timeseries`
(Jan 1, Jan 2, Dec 30, Dec 31), as 0-based day numbers. -/
def exclusionDays (y : ℕ) : List ℕ :=
  [0, 1, daysInYear y - 2, daysInYear y - 1]

/-! ## Random number generator model

The source draws from numpy's process-global generator (`np.random.uniform`,
`np.random.normal`) and reseeds it with `np.random.seed(seed)` whenever the
deviation config carries a seed. -/

/-- One step of the modelled generator state (a linear congruential step on a
32-bit state). -/
def rngNext (st : ℕ) : ℕ := (1664525 * st + 1013904223) % 4294967296

/-- Draw one uniform sample in `[0, 1)` and the successor state. -/
def rngUnit (st : ℕ) : ℚ × ℕ :=
  let st1 := rngNext st
  ((st1 : ℚ) / 4294967296, st1)

/-- Modelled from the spec: `np.random.seed` (numpy library code, not in
`src/`) resets the process-global generator state to a value that is a pure
function of the seed.  Only that purity is used by any claim. -/
def seedState (seed : ℤ) : ℕ := seed.natAbs % 4294967296

/-- Draw `n` uniform samples in `[0, 1)`, threading the generator state. -/
def drawUnits : ℕ → ℕ → List ℚ × ℕ
  | 0, st => ([], st)
  | n + 1, st =>
    let p := rngUnit st
    let q := drawUnits n p.2
    (p.1 :: q.1, q.2)

/-- Modelled from the spec: the transform inside numpy's normal sampler
(library code, not in `src/`) turning a uniform sample into a draw from a
normal distribution with mean 0 and standard deviation 1.  A deterministic
placeholder stands in for it: every claim that touches normal draws depends
only on the clipping applied afterwards, never on the drawn value. -/
def stdNormal (u : ℚ) : ℚ := 6 * u - 3

/-- `np.clip` on a scalar. -/
def npClip (x lo hi : ℚ) : ℚ := min (max x lo) hi

/-- Python's `round` (also numpy's): round half to even. -/
def pyRound (q : ℚ) : ℤ :=
  if Int.fract q = 1 / 2 then
    (if ⌊q⌋ % 2 = 0 then ⌊q⌋ else ⌊q⌋ + 1)
  else round q

/-! ## Time-deviation generator (`generate_time_deviations`,
`apply_time_deviation`) -/

/-- The `zeitverzerrung` dictionary of a vehicle group; `none` fields model
absent keys (the source reads them with `.get` and a default). -/
structure DeviationConfig where
  typ : Option String := none
  stddev_minuten : Option ℚ := none
  max_abweichung_minuten : Option ℚ := none
  seed : Option ℤ := none
deriving DecidableEq

/-- `generate_time_deviations(n_vehicles, config)`.  The process-global numpy
state is made explicit: the function receives the current state and returns
the deviations in minutes together with the state after drawing.  When the
config has a seed the state is first reset, exactly as `np.random.seed(seed)`
does in the source. -/
def generate_time_deviations (n : ℕ) (config : DeviationConfig) (st : ℕ) :
    List ℤ × ℕ :=
  let st1 := match config.seed with
    | some sd => seedState sd
    | none => st
  if config.typ.getD "normal" = "uniform" then
    let maxDev := config.max_abweichung_minuten.getD 15
    let p := drawUnits n st1
    (p.1.map fun u => pyRound (-maxDev + (maxDev - -maxDev) * u), p.2)
  else
    let stddev := config.stddev_minuten.getD 10
    let maxDev := config.max_abweichung_minuten.getD 30
    let p := drawUnits n st1
    (p.1.map fun u => pyRound (npClip (stddev * stdNormal u) (-maxDev) maxDev),
     p.2)

/-- `apply_time_deviation(base_time, deviation_minutes)`: the source combines
the time-of-day with an arbitrary date, adds the offset as a `timedelta` and
extracts `.time()` again, so the result is the base plus the offset wrapped
modulo 24 hours. -/
def apply_time_deviation (base : ℕ) (devMin : ℤ) : ℕ :=
  (((base : ℤ) + devMin) % 1440).toNat

/-! ## Data model of a cluster configuration -/

/-- One entry of a weekly plan (`wochenplan`): exactly one of the four modes.
Clock strings have already been parsed by `hhmm` into minutes after midnight. -/
inductive DayEntry where
  | steht : DayEntry
  | nicht_verfuegbar : DayEntry
  | tour (km : ℚ) (abfahrt rueckkehr : ℕ) : DayEntry
  | mehrtagstour (km : ℚ) (abfahrt rueckkehr_uhr : ℕ) (tage_spaeter : ℕ) : DayEntry
deriving DecidableEq

/-- One vehicle group of a cluster file.  `wochenplan` maps a Python weekday
(Monday = 0 … Sunday = 6) to its entry; `none` models a missing key, which the
source reads as `{"steht": True}`. -/
structure VehicleGroup where
  anzahl : ℕ
  akkuKapazitaet : ℚ
  verbrauch : ℚ
  wochenplan : ℕ → Option DayEntry
  zeitverzerrung : DeviationConfig := {}

/-! ## The time-series table

The frame has one row per resolution step of the year; row `r` is the
timestamp at absolute minute `r * s`.  A column is represented as a total
function from row numbers to values; only the rows `0 … numRows - 1` belong
to the frame, and every update of the source only ever touches rows in that
range. -/

/-- The three metric columns of the frame. -/
structure Cols where
  cap : ℕ → ℚ
  dem : ℕ → ℚ
  rest : ℕ → ℚ

/-- Number of rows of the frame (`pd.date_range` over the year, left-closed),
for a resolution of `s` minutes. -/
def numRows (y s : ℕ) : ℕ := daysInYear y * 1440 / s

/-- `year_end`: the label of the last row,
`Timestamp(year+1-01-01) - freq_delta`, in absolute minutes. -/
def yearEndMin (y s : ℕ) : ℕ := daysInYear y * 1440 - s

/-- Masked column update, the embedding of `df.loc[mask] += / -=`. -/
def updCol (P : ℕ → Bool) (f : ℚ → ℚ) (col : ℕ → ℚ) : ℕ → ℚ :=
  fun r => if P r then f (col r) else col r

/-- `df.at[row] += v`. -/
def addAt (j : ℕ) (v : ℚ) (col : ℕ → ℚ) : ℕ → ℚ :=
  fun r => if r = j then col r + v else col r

/-- The sum of a column over the whole frame (`df[col].sum()`). -/
def colSum (N : ℕ) (f : ℕ → ℚ) : ℚ := ∑ i in Finset.range N, f i

/-- Rows belonging to calendar day `d`: the slice
`df.loc[start_of_day : start_of_day + 1 day - freq_delta]`. -/
def dayMask (s d r : ℕ) : Bool :=
  decide (d * 1440 ≤ r * s ∧ r * s + s ≤ d * 1440 + 1440)

/-! ## Schedule simulator (`_handle_tour_sub_with_deviation`,
`_handle_multiday_sub_with_deviation`) -/

/-- The calendar day carrying the return timestamp.  For a day trip
(`offset = none`) it is the trip's day when the deviated return clock time is
strictly later than the deviated departure clock time, otherwise the next day.
A multi-day trip (`offset = some o`) uses `day + o` when `o ≠ 0` and falls
back to the day-trip rule when `o = 0` (Python's falsy test `if offset`). -/
def returnDayOf (d : ℕ) (offset : Option ℕ) (aL aR : ℕ) : ℕ :=
  match offset with
  | some o => if o ≠ 0 then d + o else (if aR > aL then d else d + 1)
  | none => if aR > aL then d else d + 1

/-- Absolute minute of the departure timestamp
`pd.Timestamp.combine(day, actual_leave)`: the deviated clock time is combined
with the *unshifted* calendar day. -/
def tripLeaveMin (d ab : ℕ) (devL : ℤ) : ℕ :=
  d * 1440 + apply_time_deviation ab devL

/-- Absolute minute of the return timestamp
`pd.Timestamp.combine(bd, actual_ret)`. -/
def tripReturnMin (d : ℕ) (offset : Option ℕ) (ab rk : ℕ) (devL devR : ℤ) : ℕ :=
  returnDayOf d offset (apply_time_deviation ab devL)
      (apply_time_deviation rk devR) * 1440
    + apply_time_deviation rk devR

/-- Contribution of one vehicle of a trip entry: capacity reduction over the
absence interval, the raw demand sample one grid row before departure, and the
raw rest-energy sample at the return row.  Vehicles whose interval leaves the
year are skipped entirely (`lt < year_start` cannot happen: the departure
always lies on a day of the year). -/
def vehicleTripStep (y s d : ℕ) (offset : Option ℕ) (km vcap cons : ℚ)
    (ab rk : ℕ) (devL devR : ℤ) (c : Cols) : Cols :=
  let lt := tripLeaveMin d ab devL
  let rt := tripReturnMin d offset ab rk devL devR
  if rt > yearEndMin y s then c
  else
    { cap :=
        if lt + s ≤ rt then
          updCol (fun r => decide (lt ≤ r * s ∧ r * s + s ≤ rt))
            (fun x => x - vcap) c.cap
        else c.cap
      dem :=
        if 1 ≤ lt / s ∧ lt / s - 1 < numRows y s then
          addAt (lt / s - 1) (km * cons) c.dem
        else c.dem
      rest :=
        if (rt / s) * s ≤ yearEndMin y s ∧ rt / s < numRows y s then
          addAt (rt / s) (max (vcap - km * cons) 0) c.rest
        else c.rest }

/-- One trip entry of one group on one day: draw the departure deviations and
then the return deviations (two separate generator calls threading the shared
state), then process each vehicle. -/
def handleTripDay (y s d : ℕ) (offset : Option ℕ) (km : ℚ) (ab rk : ℕ)
    (g : VehicleGroup) (c : Cols) (st : ℕ) : Cols × ℕ :=
  let p1 := generate_time_deviations g.anzahl g.zeitverzerrung st
  let p2 := generate_time_deviations g.anzahl g.zeitverzerrung p1.2
  ((List.range g.anzahl).foldl
      (fun cc i =>
        vehicleTripStep y s d offset km g.akkuKapazitaet g.verbrauch ab rk
          (p1.1.getD i 0) (p2.1.getD i 0) cc)
      c,
   p2.2)

/-! ## Timeseries builder (`build_cluster_timeseries`) -/

/-- Dispatch on the plan entry of one (non-excluded) day, as in the builder's
second per-day loop. -/
def processEntry (y s : ℕ) (g : VehicleGroup) (d : ℕ) (c : Cols) (st : ℕ) :
    Cols × ℕ :=
  match (g.wochenplan (weekdayOfDay y d)).getD .steht with
  | .steht => (c, st)
  | .nicht_verfuegbar =>
      ({ c with
          cap := updCol (dayMask s d)
            (fun x => x - g.akkuKapazitaet * g.anzahl) c.cap },
       st)
  | .tour km ab rk => handleTripDay y s d none km ab rk g c st
  | .mehrtagstour km ab rk o => handleTripDay y s d (some o) km ab rk g c st

/-- First per-day loop of a group: add `capacity * count` on every
non-excluded day. -/
def addCapacityPhase (y s : ℕ) (g : VehicleGroup) (capcol : ℕ → ℚ) : ℕ → ℚ :=
  (List.range (daysInYear y)).foldl
    (fun col d =>
      if d ∈ exclusionDays y then col
      else updCol (dayMask s d) (fun x => x + g.akkuKapazitaet * g.anzahl) col)
    capcol

/-- Second per-day loop of a group: process the plan entries of all
non-excluded days. -/
def entriesPhase (y s : ℕ) (g : VehicleGroup) (c : Cols) (st : ℕ) : Cols × ℕ :=
  (List.range (daysInYear y)).foldl
    (fun p d => if d ∈ exclusionDays y then p else processEntry y s g d p.1 p.2)
    (c, st)

/-- `clip(lower=0)` on a column. -/
def clipLower0 (col : ℕ → ℚ) : ℕ → ℚ := fun r => max (col r) 0

/-- Process one vehicle group: capacity credits, plan entries, then the
capacity clip to 0 that the source performs inside the group loop. -/
def processGroup (y s : ℕ) (p : Cols × ℕ) (g : VehicleGroup) : Cols × ℕ :=
  let c1 := { p.1 with cap := addCapacityPhase y s g p.1.cap }
  let q := entriesPhase y s g c1 p.2
  ({ q.1 with cap := clipLower0 q.1.cap }, q.2)

/-- All-zero table of the year. -/
def initCols : Cols := ⟨fun _ => 0, fun _ => 0, fun _ => 0⟩

/-- The table after all vehicle groups but before block consolidation;
`st0` is the numpy generator state at entry. -/
def buildRawTable (cfg : List VehicleGroup) (y s : ℕ) (st0 : ℕ) : Cols × ℕ :=
  cfg.foldl (processGroup y s) (initCols, st0)

/-! ## Block consolidator (`_set_energy_demand_at_block_end`,
`_set_rest_energy_at_block_start`)

The source derives block boundaries from the sign changes of
`available_capacity_kWh > 0` (`diff` of the boolean column), adding the first
row when it already has capacity and the last row when it still has capacity,
and then pairs the k-th start with the k-th end. -/

/-- `available_capacity_kWh > 0` at a row. -/
def hasCapFn (cap : ℕ → ℚ) (i : ℕ) : Bool := decide (0 < cap i)

/-- Row `i` is a block start: it has capacity and either is the first row or
the previous row has none (`capacity_diff == 1`, plus the special case for the
first element). -/
def isStartIdx (b : ℕ → Bool) (i : ℕ) : Bool := b i && (i == 0 || !b (i - 1))

/-- Row `i` is a block end: it has capacity and either is the last row or the
next row has none (`capacity_diff == -1` shifted back by one, plus the special
case for the last element). -/
def isEndIdx (b : ℕ → Bool) (N i : ℕ) : Bool := b i && (i == N - 1 || !b (i + 1))

/-- The sorted block-start rows. -/
def blockStarts (b : ℕ → Bool) (N : ℕ) : List ℕ := (List.range N).filter (isStartIdx b)

/-- The sorted block-end rows. -/
def blockEnds (b : ℕ → Bool) (N : ℕ) : List ℕ := (List.range N).filter (isEndIdx b N)

/-- The k-th start paired with the k-th end (the source's
`for i in range(len(block_starts)): if i < len(block_ends)` loop). -/
def blockPairs (b : ℕ → Bool) (N : ℕ) : List (ℕ × ℕ) :=
  (blockStarts b N).zip (blockEnds b N)

/-- `[s, e]` is a maximal run of rows satisfying `b` in a table of `N` rows
(a *block* in the sense of the consolidator). -/
def IsBlock (b : ℕ → Bool) (N s e : ℕ) : Prop :=
  s ≤ e ∧ e < N ∧ (∀ i ∈ Finset.Icc s e, b i = true) ∧
    (s = 0 ∨ b (s - 1) = false) ∧ (e = N - 1 ∨ b (e + 1) = false)

/-- Reference implementation of the maximal runs of `b` below `N`, built by
scanning the rows in order: the proof bridge between the diff-based
start/end pairing of the source and the block structure. -/
def runs (b : ℕ → Bool) : ℕ → List (ℕ × ℕ)
  | 0 => []
  | N + 1 =>
    if b N then
      if 0 < N ∧ b (N - 1) then
        (runs b N).dropLast ++ [((((runs b N).getLast?).map Prod.fst).getD 0, N)]
      else
        runs b N ++ [(N, N)]
    else runs b N

/-- Invariants of the run list of `b` below `N`: runs are ordered and
separated by at least one `false` row, each run is a maximal `true`-interval,
and every `true` row below `N` is covered.  The last two fields record how the
list ends, which drives the scan of `runs`. -/
structure RunsOK (b : ℕ → Bool) (N : ℕ) (L : List (ℕ × ℕ)) : Prop where
  pw : L.Pairwise fun p q => p.2 + 1 < q.1
  lo_le_hi : ∀ p ∈ L, p.1 ≤ p.2
  hi_lt : ∀ p ∈ L, p.2 < N
  inBlock : ∀ p ∈ L, ∀ i, p.1 ≤ i → i ≤ p.2 → b i = true
  leftMax : ∀ p ∈ L, p.1 = 0 ∨ b (p.1 - 1) = false
  cover : ∀ i, i < N → b i = true → ∃ p ∈ L, p.1 ≤ i ∧ i ≤ p.2
  closedAll : N = 0 ∨ b (N - 1) = false → ∀ p ∈ L, b (p.2 + 1) = false
  lastRun : 0 < N → b (N - 1) = true →
    ∃ s L0, L = L0 ++ [(s, N - 1)] ∧ ∀ p ∈ L0, b (p.2 + 1) = false

/-- `original[block_mask].sum()` for the block `[s, e]`: the masked sum of the
raw metric over rows of the frame that lie in the block and have capacity; `N`
is the number of rows of the frame. -/
def blockSum (N : ℕ) (cap met : ℕ → ℚ) (s e : ℕ) : ℚ :=
  ∑ i in Finset.range N, if s ≤ i ∧ i ≤ e ∧ 0 < cap i then met i else 0

/-- `_set_energy_demand_at_block_end`: reset the demand column to zero, then
for every block write the block's raw demand sum (when positive) at the
block's last row. -/
def set_energy_demand_at_block_end (N : ℕ) (cap met : ℕ → ℚ) : ℕ → ℚ :=
  (blockPairs (hasCapFn cap) N).foldl
    (fun col p =>
      let t := blockSum N cap met p.1 p.2
      if 0 < t then fun j => if j = p.2 then t else col j else col)
    (fun _ => 0)

/-- `_set_rest_energy_at_block_start`: reset the rest-energy column to zero,
then for every block write the block's raw rest-energy sum (when positive) at
the block's first row. -/
def set_rest_energy_at_block_start (N : ℕ) (cap met : ℕ → ℚ) : ℕ → ℚ :=
  (blockPairs (hasCapFn cap) N).foldl
    (fun col p =>
      let t := blockSum N cap met p.1 p.2
      if 0 < t then fun j => if j = p.1 then t else col j else col)
    (fun _ => 0)

/-- `build_cluster_timeseries(cfg, cluster_name, year, freq)`: the finished
table (numeric part; the date/time string columns of the CSV are omitted). -/
def build_cluster_timeseries (cfg : List VehicleGroup) (y s : ℕ) (st0 : ℕ) :
    Cols :=
  let c := (buildRawTable cfg y s st0).1
  { cap := c.cap
    dem := set_energy_demand_at_block_end (numRows y s) c.cap c.dem
    rest := set_rest_energy_at_block_start (numRows y s) c.cap c.rest }

/-- Modelled from the spec: the builder as §4.3 of the spec describes it,
clamping `available_capacity_kWh` to a minimum of 0 once, "after processing
all groups", instead of after each group as the source does.  Used only to
compare the two behaviours. -/
def processGroupSpecNoClip (y s : ℕ) (p : Cols × ℕ) (g : VehicleGroup) :
    Cols × ℕ :=
  let c1 := { p.1 with cap := addCapacityPhase y s g p.1.cap }
  entriesPhase y s g c1 p.2

/-- Modelled from the spec: the capacity column obtained by letting all
groups' additions and subtractions accumulate unclamped and flooring at 0 only
at the very end. -/
def buildCapacityClampedAtEnd (cfg : List VehicleGroup) (y s : ℕ) (st0 : ℕ) :
    ℕ → ℚ :=
  clipLower0 ((cfg.foldl (processGroupSpecNoClip y s) (initCols, st0)).1.cap)

/-! ## Concrete configurations used as test inputs

All of them use the year 2001 (365 days, January 1st a Monday) and daily
resolution (`freq = "24h"`, `s = 1440`), and a deviation config that makes
every drawn deviation 0 (`uniform` with `max_abweichung_minuten = 0`), so the
runs are fully deterministic. -/

/-- Deviation config drawing constant-zero deviations. -/
def devUniform0 : DeviationConfig :=
  { typ := some "uniform", max_abweichung_minuten := some 0 }

/-- A seeded uniform deviation config. -/
def devSeeded : DeviationConfig :=
  { typ := some "uniform", max_abweichung_minuten := some 30, seed := some 42 }

/-- A normal deviation config with a large spread and a fractional clip bound
of 3/5 minutes. -/
def devNarrow : DeviationConfig :=
  { stddev_minuten := some 1000, max_abweichung_minuten := some (3 / 5) }

/-- One vehicle: unavailable on Tuesdays, and a day trip every Wednesday
departing at 00:00 and returning at 23:00 over 5 km.  Each Wednesday trip
books its raw demand sample on the preceding Tuesday row, whose available
capacity is 0. -/
def groupTueOffWedTour : VehicleGroup :=
  { anzahl := 1, akkuKapazitaet := 10, verbrauch := 1,
    wochenplan := fun wd =>
      if wd = 1 then some .nicht_verfuegbar
      else if wd = 2 then some (.tour 5 0 1380)
      else none,
    zeitverzerrung := devUniform0 }

/-- One vehicle leaving on a two-day trip both on Mondays and on Tuesdays
(departure 00:00, return clock 00:00, `tage_später = 2`): on Tuesday rows its
own capacity balance is `10 - 10 - 10 = -10`. -/
def groupOverlapTrips : VehicleGroup :=
  { anzahl := 1, akkuKapazitaet := 10, verbrauch := 1,
    wochenplan := fun wd =>
      if wd = 0 then some (.mehrtagstour 0 0 0 2)
      else if wd = 1 then some (.mehrtagstour 0 0 0 2)
      else none,
    zeitverzerrung := devUniform0 }

/-- One stationary vehicle of capacity 5. -/
def groupStationary5 : VehicleGroup :=
  { anzahl := 1, akkuKapazitaet := 5, verbrauch := 1,
    wochenplan := fun _ => none, zeitverzerrung := devUniform0 }

/-- One stationary vehicle of capacity 50, count 2 (used for the zero-padding
witness). -/
def groupStationary50x2 : VehicleGroup :=
  { anzahl := 2, akkuKapazitaet := 50, verbrauch := 1,
    wochenplan := fun _ => none, zeitverzerrung := devUniform0 }

/-- A small capacity column with blocks `[1, 2]` and `[4, 4]` in a 5-row
table, used to exercise the consolidator on its own. -/
def capSmall : ℕ → ℚ := fun i => if i = 1 ∨ i = 2 ∨ i = 4 then 3 else 0

/-- A raw metric column for `capSmall`. -/
def metSmall : ℕ → ℚ := fun i => if i = 1 then 5 else if i = 2 then 7 else 0

/-! # Theorems

## Structure of the runs scan -/

theorem runs_succ_false (b : ℕ → Bool) (N : ℕ) (h : b N = false) :
    runs b (N + 1) = runs b N := by
  simp [runs, h]

theorem runs_succ_fresh (b : ℕ → Bool) (N : ℕ) (h : b N = true)
    (h2 : N = 0 ∨ b (N - 1) = false) :
    runs b (N + 1) = runs b N ++ [(N, N)] := by
  have hcond : ¬(0 < N ∧ b (N - 1) = true) := by
    rcases h2 with h0 | hf
    · rintro ⟨hpos, -⟩; omega
    · rintro ⟨-, ht⟩; rw [hf] at ht; exact Bool.false_ne_true ht
  simp [runs, h, hcond]

theorem runs_succ_extend (b : ℕ → Bool) (N : ℕ) (h : b N = true)
    (h1 : 0 < N) (h2 : b (N - 1) = true) (s : ℕ) (L0 : List (ℕ × ℕ))
    (hL : runs b N = L0 ++ [(s, N - 1)]) :
    runs b (N + 1) = L0 ++ [(s, N)] := by
  have hcond : 0 < N ∧ b (N - 1) = true := ⟨h1, h2⟩
  simp only [runs, h, hcond, if_true, and_self, hL, List.dropLast_concat,
    List.getLast?_concat, Option.map_some, Option.getD_some, if_pos]
  simp [hL]

theorem runs_ok (b : ℕ → Bool) : ∀ N, RunsOK b N (runs b N) := by
  intro N
  induction N with
  | zero =>
    refine ⟨?_, ?_, ?_, ?_, ?_, ?_, ?_, ?_⟩ <;> simp [runs]
  | succ N IH =>
    by_cases hbN : b N = true
    · by_cases hfresh : N = 0 ∨ b (N - 1) = false
      · -- a new one-element run `(N, N)` is opened
        rw [runs_succ_fresh b N hbN hfresh]
        have hclosed : ∀ p ∈ runs b N, b (p.2 + 1) = false := IH.closedAll hfresh
        have habove : ∀ p ∈ runs b N, p.2 + 1 < N := by
          intro p hp
          have h1 : p.2 < N := IH.hi_lt p hp
          have h2 : p.2 + 1 ≠ N := by
            intro hEq
            have := hclosed p hp
            rw [hEq, hbN] at this
            cases this
          omega
        refine ⟨?_, ?_, ?_, ?_, ?_, ?_, ?_, ?_⟩
        · refine List.pairwise_append.mpr ⟨IH.pw, by simp, ?_⟩
          intro p hp q hq
          simp only [List.mem_singleton] at hq
          subst hq
          exact habove p hp
        · intro p hp
          rcases List.mem_append.mp hp with h | h
          · exact IH.lo_le_hi p h
          · simp only [List.mem_singleton] at h; subst h; exact le_rfl
        · intro p hp
          rcases List.mem_append.mp hp with h | h
          · exact Nat.lt_succ_of_lt (IH.hi_lt p h)
          · simp only [List.mem_singleton] at h; subst h; exact Nat.lt_succ_self N
        · intro p hp i hi1 hi2
          rcases List.mem_append.mp hp with h | h
          · exact IH.inBlock p h i hi1 hi2
          · simp only [List.mem_singleton] at h; subst h
            have : i = N := le_antisymm hi2 hi1
            subst this; exact hbN
        · intro p hp
          rcases List.mem_append.mp hp with h | h
          · exact IH.leftMax p h
          · simp only [List.mem_singleton] at h; subst h; exact hfresh
        · intro i hi hbi
          rcases Nat.lt_succ_iff_lt_or_eq.mp hi with h | h
          · obtain ⟨p, hp, hb1, hb2⟩ := IH.cover i h hbi
            exact ⟨p, List.mem_append.mpr (Or.inl hp), hb1, hb2⟩
          · exact ⟨(N, N), List.mem_append.mpr (Or.inr (by simp)), by omega, by omega⟩
        · intro hcontra
          rcases hcontra with h | h
          · exact absurd h (Nat.succ_ne_zero N)
          · simp only [Nat.add_sub_cancel] at h
            rw [hbN] at h
            cases h
        · intro _ _
          exact ⟨N, runs b N, by simp, hclosed⟩
      · -- the last run is extended to `N`
        have hpos : 0 < N := by
          rcases Nat.eq_zero_or_pos N with h | h
          · exact absurd (Or.inl h) hfresh
          · exact h
        have hbN1 : b (N - 1) = true := by
          rcases Bool.eq_false_or_eq_true (b (N - 1)) with h | h
          · exact h
          · exact absurd (Or.inr h) hfresh
        obtain ⟨s, L0, hL, hL0c⟩ := IH.lastRun hpos hbN1
        rw [runs_succ_extend b N hbN hpos hbN1 s L0 hL]
        have hmemL : (s, N - 1) ∈ runs b N := by
          rw [hL]; exact List.mem_append.mpr (Or.inr (by simp))
        have hmemL0 : ∀ p ∈ L0, p ∈ runs b N := by
          intro p hp; rw [hL]; exact List.mem_append.mpr (Or.inl hp)
        have hpwOld := IH.pw
        rw [hL] at hpwOld
        obtain ⟨hpwL0, -, hrel⟩ := List.pairwise_append.mp hpwOld
        have hrelS : ∀ p ∈ L0, p.2 + 1 < s := by
          intro p hp
          have := hrel p hp (s, N - 1) (by simp)
          exact this
        have hsle : s ≤ N - 1 := IH.lo_le_hi (s, N - 1) hmemL
        refine ⟨?_, ?_, ?_, ?_, ?_, ?_, ?_, ?_⟩
        · refine List.pairwise_append.mpr ⟨hpwL0, by simp, ?_⟩
          intro p hp q hq
          simp only [List.mem_singleton] at hq
          subst hq
          exact hrelS p hp
        · intro p hp
          rcases List.mem_append.mp hp with h | h
          · exact IH.lo_le_hi p (hmemL0 p h)
          · simp only [List.mem_singleton] at h; subst h
            exact le_trans hsle (Nat.sub_le N 1)
        · intro p hp
          rcases List.mem_append.mp hp with h | h
          · exact Nat.lt_succ_of_lt (IH.hi_lt p (hmemL0 p h))
          · simp only [List.mem_singleton] at h; subst h; exact Nat.lt_succ_self N
        · intro p hp i hi1 hi2
          rcases List.mem_append.mp hp with h | h
          · exact IH.inBlock p (hmemL0 p h) i hi1 hi2
          · simp only [List.mem_singleton] at h; subst h
            simp only at hi1 hi2
            rcases Nat.lt_succ_iff_lt_or_eq.mp (Nat.lt_succ_of_le hi2) with hlt | hEq
            · exact IH.inBlock (s, N - 1) hmemL i hi1 (by omega)
            · subst hEq; exact hbN
        · intro p hp
          rcases List.mem_append.mp hp with h | h
          · exact IH.leftMax p (hmemL0 p h)
          · simp only [List.mem_singleton] at h; subst h
            exact IH.leftMax (s, N - 1) hmemL
        · intro i hi hbi
          rcases Nat.lt_succ_iff_lt_or_eq.mp hi with h | h
          · obtain ⟨p, hp, hb1, hb2⟩ := IH.cover i h hbi
            rw [hL] at hp
            rcases List.mem_append.mp hp with hmem | hmem
            · exact ⟨p, List.mem_append.mpr (Or.inl hmem), hb1, hb2⟩
            · simp only [List.mem_singleton] at hmem; subst hmem
              refine ⟨(s, N), List.mem_append.mpr (Or.inr (by simp)), hb1, ?_⟩
              simp only at hb2 ⊢
              omega
          · refine ⟨(s, N), List.mem_append.mpr (Or.inr (by simp)), ?_, ?_⟩ <;>
              simp only <;> omega
        · intro hcontra
          rcases hcontra with h | h
          · exact absurd h (Nat.succ_ne_zero N)
          · simp only [Nat.add_sub_cancel] at h
            rw [hbN] at h
            cases h
        · intro _ _
          exact ⟨s, L0, by simp, hL0c⟩
    · -- row `N` has no capacity: the runs are unchanged
      have hb : b N = false := Bool.eq_false_iff.mpr hbN
      rw [runs_succ_false b N hb]
      refine ⟨IH.pw, IH.lo_le_hi, ?_, IH.inBlock, IH.leftMax, ?_, ?_, ?_⟩
      · intro p hp; exact Nat.lt_succ_of_lt (IH.hi_lt p hp)
      · intro i hi hbi
        rcases Nat.lt_succ_iff_lt_or_eq.mp hi with h | h
        · exact IH.cover i h hbi
        · subst h; rw [hb] at hbi; exact absurd hbi Bool.false_ne_true
      · intro _ p hp
        rcases Nat.eq_zero_or_pos N with hN0 | hNpos
        · subst hN0; simp [runs] at hp
        · rcases Bool.eq_false_or_eq_true (b (N - 1)) with hN1 | hN1
          · obtain ⟨s, L0, hL, hL0c⟩ := IH.lastRun hNpos hN1
            rw [hL] at hp
            rcases List.mem_append.mp hp with hmem | hmem
            · exact hL0c p hmem
            · simp only [List.mem_singleton] at hmem; subst hmem
              simp only
              have : N - 1 + 1 = N := by omega
              rw [this, hb]
          · exact IH.closedAll (Or.inr hN1) p hp
      · intro _ h
        simp only [Nat.add_sub_cancel] at h
        rw [hb] at h
        exact absurd h Bool.false_ne_true

/-- The diff-based start/end detection of the source, paired positionally,
produces exactly the maximal runs: the central correctness fact of the
block consolidator.  The length equality of the start and end lists is proved
alongside. -/
theorem blockPairs_eq_runs (b : ℕ → Bool) :
    ∀ N, (blockStarts b N).length = (blockEnds b N).length ∧
      blockPairs b N = runs b N := by
  intro N
  induction N with
  | zero => exact ⟨rfl, rfl⟩
  | succ N IH =>
    obtain ⟨IHlen, IHpairs⟩ := IH
    have hstarts : blockStarts b (N + 1) =
        blockStarts b N ++ if isStartIdx b N then [N] else [] := by
      unfold blockStarts
      rw [List.range_succ, List.filter_append]
      cases hc : isStartIdx b N <;> simp [List.filter, hc]
    have hends : blockEnds b (N + 1) =
        (List.range N).filter (isEndIdx b (N + 1)) ++
          if isEndIdx b (N + 1) N then [N] else [] := by
      unfold blockEnds
      rw [List.range_succ, List.filter_append]
      cases hc : isEndIdx b (N + 1) N <;> simp [List.filter, hc]
    have hendsN : isEndIdx b (N + 1) N = b N := by
      unfold isEndIdx
      simp
    by_cases hbN : b N = true
    · by_cases hfresh : N = 0 ∨ b (N - 1) = false
      · -- fresh singleton run appended
        have hstartN : isStartIdx b N = true := by
          unfold isStartIdx
          rcases hfresh with h0 | hf
          · subst h0; simp [hbN]
          · simp [hbN, hf]
        have hprefix : (List.range N).filter (isEndIdx b (N + 1)) =
            blockEnds b N := by
          unfold blockEnds
          apply List.filter_congr
          intro i hi
          rw [List.mem_range] at hi
          unfold isEndIdx
          have h1 : (i == N + 1 - 1) = false := by
            simp only [Nat.add_sub_cancel, beq_eq_false_iff_ne]
            omega
          by_cases h2 : i = N - 1 ∧ 0 < N
          · obtain ⟨h2a, h2b⟩ := h2
            have hiN : i + 1 = N := by omega
            have hf : b (N - 1) = false := by
              rcases hfresh with h0 | hf
              · omega
              · exact hf
            rw [h2a]
            simp [hiN, hf]
          · have h3 : (i == N - 1) = false := by
              rw [beq_eq_false_iff_ne]
              omega
            rw [h1, h3]
          -- remaining: both reduce to b i && (false || !b (i+1))
        have hstarts2 : blockStarts b (N + 1) = blockStarts b N ++ [N] := by
          rw [hstarts, hstartN]; simp
        have hends2 : blockEnds b (N + 1) = blockEnds b N ++ [N] := by
          rw [hends, hprefix, hendsN, hbN]; simp
        constructor
        · rw [hstarts2, hends2]; simp [IHlen]
        · unfold blockPairs at IHpairs ⊢
          rw [hstarts2, hends2, List.zip_append IHlen, IHpairs,
            runs_succ_fresh b N hbN hfresh]
          rfl
      · -- last run extended
        have hpos : 0 < N := by
          rcases Nat.eq_zero_or_pos N with h | h
          · exact absurd (Or.inl h) hfresh
          · exact h
        have hbN1 : b (N - 1) = true := by
          rcases Bool.eq_false_or_eq_true (b (N - 1)) with h | h
          · exact h
          · exact absurd (Or.inr h) hfresh
        have hstartN : isStartIdx b N = false := by
          unfold isStartIdx
          have : (N == 0) = false := by
            rw [beq_eq_false_iff_ne]; omega
          simp [this, hbN1]
        -- decompose range N at N - 1
        have hrangeN : List.range N = List.range (N - 1) ++ [N - 1] := by
          conv_lhs => rw [show N = (N - 1) + 1 by omega, List.range_succ]
        have hcongr0 : (List.range (N - 1)).filter (isEndIdx b (N + 1)) =
            (List.range (N - 1)).filter (isEndIdx b N) := by
          apply List.filter_congr
          intro i hi
          rw [List.mem_range] at hi
          unfold isEndIdx
          have h1 : (i == N + 1 - 1) = false := by
            simp only [Nat.add_sub_cancel, beq_eq_false_iff_ne]; omega
          have h3 : (i == N - 1) = false := by
            rw [beq_eq_false_iff_ne]; omega
          rw [h1, h3]
        have hatN1new : isEndIdx b (N + 1) (N - 1) = false := by
          unfold isEndIdx
          have h1 : (N - 1 == N + 1 - 1) = false := by
            simp only [Nat.add_sub_cancel, beq_eq_false_iff_ne]; omega
          have h2 : N - 1 + 1 = N := by omega
          rw [h1, h2, hbN]
          simp
        have hatN1old : isEndIdx b N (N - 1) = true := by
          unfold isEndIdx
          simp [hbN1]
        have hendsOld : blockEnds b N =
            (List.range (N - 1)).filter (isEndIdx b N) ++ [N - 1] := by
          unfold blockEnds
          rw [hrangeN, List.filter_append]
          simp [List.filter, hatN1old]
        have hendsNew : blockEnds b (N + 1) =
            (List.range (N - 1)).filter (isEndIdx b N) ++ [N] := by
          rw [hends, hendsN, hbN, if_pos rfl, hrangeN, List.filter_append,
            hcongr0]
          simp [List.filter, hatN1new]
        -- starts list is nonempty
        have hlen2 : (blockStarts b N).length =
            ((List.range (N - 1)).filter (isEndIdx b N)).length + 1 := by
          rw [IHlen, hendsOld]
          simp
        have hne : blockStarts b N ≠ [] := by
          intro h
          rw [h] at hlen2
          simp at hlen2
        obtain ⟨s, L0, hL, hL0c⟩ := (runs_ok b N).lastRun hpos hbN1
        have hSdecomp : blockStarts b N =
            (blockStarts b N).dropLast ++ [(blockStarts b N).getLast hne] :=
          (List.dropLast_append_getLast hne).symm
        have hS0len : (blockStarts b N).dropLast.length =
            ((List.range (N - 1)).filter (isEndIdx b N)).length := by
          rw [List.length_dropLast, hlen2]
          simp
        have hzipOld : blockPairs b N =
            (blockStarts b N).dropLast.zip
                ((List.range (N - 1)).filter (isEndIdx b N)) ++
              [((blockStarts b N).getLast hne, N - 1)] := by
          unfold blockPairs
          conv_lhs => rw [hSdecomp, hendsOld]
          rw [List.zip_append hS0len]
          rfl
        have hkey : (blockStarts b N).dropLast.zip
              ((List.range (N - 1)).filter (isEndIdx b N)) = L0 ∧
            ((blockStarts b N).getLast hne, N - 1) = (s, N - 1) := by
          have h := hzipOld.symm.trans (IHpairs.trans hL)
          have := List.append_inj' h (by simp)
          obtain ⟨h1, h2⟩ := this
          refine ⟨h1, ?_⟩
          simpa using h2
        constructor
        · rw [hstarts, hstartN, hendsNew]
          simp only [if_neg Bool.false_ne_true, List.append_nil, hlen2]
          simp
        · rw [runs_succ_extend b N hbN hpos hbN1 s L0 hL]
          unfold blockPairs
          rw [hstarts, hstartN]
          simp only [if_neg Bool.false_ne_true, List.append_nil]
          conv_lhs => rw [hSdecomp, hendsNew]
          rw [List.zip_append hS0len, hkey.1]
          have hs : (blockStarts b N).getLast hne = s := by
            have := hkey.2
            simpa using this
          rw [hs]
          rfl
    · -- b N = false: nothing changes
      have hb : b N = false := Bool.eq_false_iff.mpr hbN
      have hstartN : isStartIdx b N = false := by
        unfold isStartIdx
        rw [hb]
        rfl
      have hprefix : (List.range N).filter (isEndIdx b (N + 1)) =
          blockEnds b N := by
        unfold blockEnds
        apply List.filter_congr
        intro i hi
        rw [List.mem_range] at hi
        unfold isEndIdx
        have h1 : (i == N + 1 - 1) = false := by
          simp only [Nat.add_sub_cancel, beq_eq_false_iff_ne]; omega
        by_cases h2 : i = N - 1 ∧ 0 < N
        · obtain ⟨h2a, h2b⟩ := h2
          rw [h2a]
          have e1 : N - 1 + 1 = N := by omega
          have e2 : ((N - 1 : ℕ) == N + 1 - 1) = false := by
            rw [beq_eq_false_iff_ne]; omega
          simp [e1, e2, hb]
        · have h3 : (i == N - 1) = false := by
            rw [beq_eq_false_iff_ne]; omega
          rw [h1, h3]
      refine ⟨?_, ?_⟩
      · rw [hstarts, hends, hprefix, hendsN, hb, hstartN]
        simp [IHlen]
      · unfold blockPairs
        rw [hstarts, hends, hprefix, hendsN, hb, hstartN]
        simp only [if_neg Bool.false_ne_true, List.append_nil]
        rw [runs_succ_false b N hb]
        exact IHpairs

/-- Every run ends either at the last row or just before a `false` row. -/
theorem runs_rightMax (b : ℕ → Bool) (N : ℕ) :
    ∀ p ∈ runs b N, p.2 = N - 1 ∨ b (p.2 + 1) = false := by
  intro p hp
  rcases Nat.eq_zero_or_pos N with h0 | hpos
  · subst h0; simp [runs] at hp
  rcases Bool.eq_false_or_eq_true (b (N - 1)) with h | h
  · obtain ⟨s, L0, hL, hc⟩ := (runs_ok b N).lastRun hpos h
    rw [hL] at hp
    rcases List.mem_append.mp hp with hmem | hmem
    · exact Or.inr (hc p hmem)
    · simp only [List.mem_singleton] at hmem; subst hmem; exact Or.inl rfl
  · exact Or.inr ((runs_ok b N).closedAll (Or.inr h) p hp)

/-- The invariants of `runs` transferred to the source's start/end pairing. -/
theorem pairs_ok (b : ℕ → Bool) (N : ℕ) : RunsOK b N (blockPairs b N) := by
  rw [(blockPairs_eq_runs b N).2]
  exact runs_ok b N

/-- The end of any other pair cannot lie inside a given pair's interval. -/
theorem pairs_snd_unique (b : ℕ → Bool) (N : ℕ) :
    ∀ p ∈ blockPairs b N, ∀ q ∈ blockPairs b N,
      p.1 ≤ q.2 → q.2 ≤ p.2 → q = p := by
  intro p hp q hq h1 h2
  by_contra hne
  have hpw := (pairs_ok b N).pw
  have hsym : ∀ x ∈ blockPairs b N, ∀ y ∈ blockPairs b N, x ≠ y →
      x.2 + 1 < y.1 ∨ y.2 + 1 < x.1 := by
    have h2' : (blockPairs b N).Pairwise fun x y =>
        x.2 + 1 < y.1 ∨ y.2 + 1 < x.1 := hpw.imp fun h => Or.inl h
    intro x hx y hy hxy
    exact List.Pairwise.forall (fun a c hac => hac.symm) h2' hx hy hxy
  rcases hsym q hq p hp hne with h | h
  · have := (pairs_ok b N).lo_le_hi p hp
    omega
  · have := (pairs_ok b N).lo_le_hi q hq
    omega

/-- The start of any other pair cannot lie inside a given pair's interval. -/
theorem pairs_fst_unique (b : ℕ → Bool) (N : ℕ) :
    ∀ p ∈ blockPairs b N, ∀ q ∈ blockPairs b N,
      p.1 ≤ q.1 → q.1 ≤ p.2 → q = p := by
  intro p hp q hq h1 h2
  by_contra hne
  have hpw := (pairs_ok b N).pw
  have hsym : ∀ x ∈ blockPairs b N, ∀ y ∈ blockPairs b N, x ≠ y →
      x.2 + 1 < y.1 ∨ y.2 + 1 < x.1 := by
    have h2' : (blockPairs b N).Pairwise fun x y =>
        x.2 + 1 < y.1 ∨ y.2 + 1 < x.1 := hpw.imp fun h => Or.inl h
    intro x hx y hy hxy
    exact List.Pairwise.forall (fun a c hac => hac.symm) h2' hx hy hxy
  rcases hsym q hq p hp hne with h | h
  · have := (pairs_ok b N).lo_le_hi q hq
    omega
  · have := (pairs_ok b N).lo_le_hi p hp
    omega

/-- Every maximal run of `true` rows appears among the source's paired
blocks. -/
theorem mem_pairs_of_isBlock (b : ℕ → Bool) (N s e : ℕ)
    (h : IsBlock b N s e) : (s, e) ∈ blockPairs b N := by
  obtain ⟨hse, heN, hin, hleft, hright⟩ := h
  have hOK := pairs_ok b N
  have hbs : b s = true := hin s (by simp [Finset.mem_Icc]; omega)
  obtain ⟨p, hp, hp1, hp2⟩ := hOK.cover s (lt_of_le_of_lt hse heN) hbs
  have hfst : p.1 = s := by
    rcases Nat.lt_or_ge p.1 s with hlt | hge
    · exfalso
      rcases hleft with h0 | hf
      · omega
      · have : b (s - 1) = true :=
          hOK.inBlock p hp (s - 1) (by omega) (by omega)
        rw [hf] at this
        exact Bool.false_ne_true this
    · omega
  have hsnd : p.2 = e := by
    rcases Nat.lt_trichotomy p.2 e with hlt | hEq | hgt
    · exfalso
      have hb1 : b (p.2 + 1) = true := hin (p.2 + 1) (by simp [Finset.mem_Icc]; omega)
      have hre : p.2 = N - 1 ∨ b (p.2 + 1) = false := by
        have := runs_rightMax b N p
        rw [← (blockPairs_eq_runs b N).2] at this
        exact this hp
      rcases hre with hNe | hf
      · omega
      · rw [hf] at hb1; exact Bool.false_ne_true hb1
    · exact hEq
    · exfalso
      have hb1 : b (e + 1) = true :=
        hOK.inBlock p hp (e + 1) (by omega) (by omega)
      rcases hright with hNe | hf
      · have := hOK.hi_lt p hp
        omega
      · rw [hf] at hb1; exact Bool.false_ne_true hb1
  have : p = (s, e) := by
    cases p
    simp only at hfst hsnd
    rw [hfst, hsnd]
  rw [← this]
  exact hp

/-! ## Behaviour of the write loop of the consolidator -/

theorem foldStep_notmem (step : (ℕ → ℚ) → ℕ × ℕ → ℕ → ℚ) (key : ℕ × ℕ → ℕ)
    (hstep : ∀ c p j, key p ≠ j → step c p j = c j) :
    ∀ (ps : List (ℕ × ℕ)) (col : ℕ → ℚ) (j : ℕ), (∀ p ∈ ps, key p ≠ j) →
      ps.foldl step col j = col j := by
  intro ps
  induction ps with
  | nil => intro col j _; rfl
  | cons q ps IH =>
    intro col j h
    rw [List.foldl_cons]
    rw [IH _ j fun p hp => h p (List.mem_cons_of_mem q hp)]
    exact hstep col q j (h q (List.mem_cons_self q ps))

theorem foldStep_mem (step : (ℕ → ℚ) → ℕ × ℕ → ℕ → ℚ) (key : ℕ × ℕ → ℕ)
    (t : ℕ × ℕ → ℚ)
    (hstep1 : ∀ c p j, key p ≠ j → step c p j = c j)
    (hstep2 : ∀ c p, step c p (key p) = if 0 < t p then t p else c (key p)) :
    ∀ (ps : List (ℕ × ℕ)) (col : ℕ → ℚ) (q : ℕ × ℕ), q ∈ ps →
      ps.Pairwise (fun a c => key a ≠ key c) → col (key q) = 0 →
      ps.foldl step col (key q) = if 0 < t q then t q else 0 := by
  intro ps
  induction ps with
  | nil => intro col q h; cases h
  | cons r ps IH =>
    intro col q hq hpw hcol0
    obtain ⟨hhead, htail⟩ := List.pairwise_cons.mp hpw
    rw [List.foldl_cons]
    rcases List.mem_cons.mp hq with hEq | hmem
    · subst hEq
      have hnot : ∀ p ∈ ps, key p ≠ key q := by
        intro p hp hk
        exact hhead p hp hk.symm
      rw [foldStep_notmem step key hstep1 ps _ _ hnot, hstep2, hcol0]
    · have hne : key r ≠ key q := hhead q hmem
      have hcol0' : step col r (key q) = 0 := by
        rw [hstep1 col r (key q) hne, hcol0]
      exact IH _ q hmem htail hcol0'

theorem hasCapFn_iff (cap : ℕ → ℚ) (i : ℕ) : hasCapFn cap i = true ↔ 0 < cap i := by
  simp [hasCapFn]

/-- On a block all of whose rows have capacity, the masked block sum is the
plain sum over the block's interval. -/
theorem blockSum_eq_Icc (N : ℕ) (cap met : ℕ → ℚ) (s e : ℕ) (heN : e < N)
    (hin : ∀ i ∈ Finset.Icc s e, 0 < cap i) :
    blockSum N cap met s e = ∑ i in Finset.Icc s e, met i := by
  unfold blockSum
  rw [← Finset.sum_filter]
  congr 1
  ext i
  simp only [Finset.mem_filter, Finset.mem_range, Finset.mem_Icc]
  constructor
  · rintro ⟨-, h1, h2, -⟩; exact ⟨h1, h2⟩
  · rintro ⟨h1, h2⟩
    exact ⟨by omega, h1, h2, hin i (Finset.mem_Icc.mpr ⟨h1, h2⟩)⟩

theorem pairs_pw_snd (cap : ℕ → ℚ) (N : ℕ) :
    (blockPairs (hasCapFn cap) N).Pairwise fun a c => a.2 ≠ c.2 := by
  have hOK := pairs_ok (hasCapFn cap) N
  refine List.Pairwise.imp_of_mem ?_ hOK.pw
  intro a c ha hc h
  have := hOK.lo_le_hi c hc
  omega

theorem pairs_pw_fst (cap : ℕ → ℚ) (N : ℕ) :
    (blockPairs (hasCapFn cap) N).Pairwise fun a c => a.1 ≠ c.1 := by
  have hOK := pairs_ok (hasCapFn cap) N
  refine List.Pairwise.imp_of_mem ?_ hOK.pw
  intro a c ha hc h
  have := hOK.lo_le_hi a ha
  omega

theorem set_end_apply_notmem (N : ℕ) (cap met : ℕ → ℚ) (j : ℕ)
    (h : ∀ p ∈ blockPairs (hasCapFn cap) N, p.2 ≠ j) :
    set_energy_demand_at_block_end N cap met j = 0 := by
  unfold set_energy_demand_at_block_end
  refine foldStep_notmem _ Prod.snd ?_ _ _ _ h
  intro c p x hne
  show (if 0 < blockSum N cap met p.1 p.2 then
      fun r => if r = p.2 then blockSum N cap met p.1 p.2 else c r else c) x = c x
  split
  · simp [Ne.symm hne]
  · rfl

theorem set_start_apply_notmem (N : ℕ) (cap met : ℕ → ℚ) (j : ℕ)
    (h : ∀ p ∈ blockPairs (hasCapFn cap) N, p.1 ≠ j) :
    set_rest_energy_at_block_start N cap met j = 0 := by
  unfold set_rest_energy_at_block_start
  refine foldStep_notmem _ Prod.fst ?_ _ _ _ h
  intro c p x hne
  show (if 0 < blockSum N cap met p.1 p.2 then
      fun r => if r = p.1 then blockSum N cap met p.1 p.2 else c r else c) x = c x
  split
  · simp [Ne.symm hne]
  · rfl

theorem set_end_apply_pair (N : ℕ) (cap met : ℕ → ℚ) (p : ℕ × ℕ)
    (hp : p ∈ blockPairs (hasCapFn cap) N) :
    set_energy_demand_at_block_end N cap met p.2 =
      if 0 < blockSum N cap met p.1 p.2 then blockSum N cap met p.1 p.2
      else 0 := by
  unfold set_energy_demand_at_block_end
  refine foldStep_mem _ Prod.snd (fun q => blockSum N cap met q.1 q.2) ?_ ?_ _ _
    p hp (pairs_pw_snd cap N) rfl
  · intro c q x hne
    show (if 0 < blockSum N cap met q.1 q.2 then
        fun r => if r = q.2 then blockSum N cap met q.1 q.2 else c r else c) x = c x
    split
    · simp [Ne.symm hne]
    · rfl
  · intro c q
    show (if 0 < blockSum N cap met q.1 q.2 then
        fun r => if r = q.2 then blockSum N cap met q.1 q.2 else c r else c) q.2 =
      if 0 < blockSum N cap met q.1 q.2 then blockSum N cap met q.1 q.2 else c q.2
    split
    · simp
    · rfl

theorem set_start_apply_pair (N : ℕ) (cap met : ℕ → ℚ) (p : ℕ × ℕ)
    (hp : p ∈ blockPairs (hasCapFn cap) N) :
    set_rest_energy_at_block_start N cap met p.1 =
      if 0 < blockSum N cap met p.1 p.2 then blockSum N cap met p.1 p.2
      else 0 := by
  unfold set_rest_energy_at_block_start
  refine foldStep_mem _ Prod.fst (fun q => blockSum N cap met q.1 q.2) ?_ ?_ _ _
    p hp (pairs_pw_fst cap N) rfl
  · intro c q x hne
    show (if 0 < blockSum N cap met q.1 q.2 then
        fun r => if r = q.1 then blockSum N cap met q.1 q.2 else c r else c) x = c x
    split
    · simp [Ne.symm hne]
    · rfl
  · intro c q
    show (if 0 < blockSum N cap met q.1 q.2 then
        fun r => if r = q.1 then blockSum N cap met q.1 q.2 else c r else c) q.1 =
      if 0 < blockSum N cap met q.1 q.2 then blockSum N cap met q.1 q.2 else c q.1
    split
    · simp
    · rfl

/-- Summing one write step of the consolidator over the frame. -/
theorem foldStep_colSum (N : ℕ) (step : (ℕ → ℚ) → ℕ × ℕ → ℕ → ℚ)
    (key : ℕ × ℕ → ℕ) (t : ℕ × ℕ → ℚ)
    (hstep1 : ∀ c p j, key p ≠ j → step c p j = c j)
    (hstep2 : ∀ c p, step c p (key p) = if 0 < t p then t p else c (key p)) :
    ∀ (ps : List (ℕ × ℕ)) (col : ℕ → ℚ),
      ps.Pairwise (fun a c => key a ≠ key c) → (∀ p ∈ ps, key p < N) →
      (∀ p ∈ ps, col (key p) = 0) →
      colSum N (ps.foldl step col) =
        colSum N col + (ps.map fun p => if 0 < t p then t p else 0).sum := by
  intro ps
  induction ps with
  | nil => intro col _ _ _; simp
  | cons r ps IH =>
    intro col hpw hlt hcol0
    obtain ⟨hhead, htail⟩ := List.pairwise_cons.mp hpw
    rw [List.foldl_cons, List.map_cons, List.sum_cons]
    have hr0 : col (key r) = 0 := hcol0 r (List.mem_cons_self r ps)
    have hstepSum : colSum N (step col r) =
        colSum N col + (if 0 < t r then t r else 0) := by
      have hdiff : ∀ j, step col r j - col j =
          if j = key r then (if 0 < t r then t r else 0) else 0 := by
        intro j
        by_cases hj : j = key r
        · subst hj
          rw [hstep2, hr0]
          split <;> simp
        · rw [hstep1 col r j fun h => hj h.symm]
          simp [hj]
      have : colSum N (step col r) - colSum N col =
          if 0 < t r then t r else 0 := by
        unfold colSum
        rw [← Finset.sum_sub_distrib]
        calc ∑ j in Finset.range N, (step col r j - col j)
            = ∑ j in Finset.range N,
                if j = key r then (if 0 < t r then t r else 0) else 0 := by
              exact Finset.sum_congr rfl fun j _ => hdiff j
          _ = if 0 < t r then t r else 0 := by
              rw [Finset.sum_ite_eq' (Finset.range N) (key r)]
              simp [hlt r (List.mem_cons_self r ps)]
      linarith [this]
    have hcol0' : ∀ p ∈ ps, step col r (key p) = 0 := by
      intro p hp
      rw [hstep1 col r (key p) (hhead p hp), hcol0 p (List.mem_cons_of_mem r hp)]
    rw [IH (step col r) htail (fun p hp => hlt p (List.mem_cons_of_mem r hp))
      hcol0', hstepSum]
    ring

/-- Summing the per-run interval sums recovers the masked total. -/
theorem runs_sum (b : ℕ → Bool) (g : ℕ → ℚ) :
    ∀ N, ((runs b N).map fun p => ∑ i in Finset.Icc p.1 p.2, g i).sum =
      ∑ i in Finset.range N, if b i then g i else 0 := by
  intro N
  induction N with
  | zero => simp [runs]
  | succ N IH =>
    rw [Finset.sum_range_succ]
    by_cases hbN : b N = true
    · by_cases hfresh : N = 0 ∨ b (N - 1) = false
      · rw [runs_succ_fresh b N hbN hfresh]
        rw [List.map_append, List.sum_append, IH, hbN]
        simp
      · have hpos : 0 < N := by
          rcases Nat.eq_zero_or_pos N with h | h
          · exact absurd (Or.inl h) hfresh
          · exact h
        have hbN1 : b (N - 1) = true := by
          rcases Bool.eq_false_or_eq_true (b (N - 1)) with h | h
          · exact h
          · exact absurd (Or.inr h) hfresh
        obtain ⟨s, L0, hL, -⟩ := (runs_ok b N).lastRun hpos hbN1
        have hsle : s ≤ N - 1 := by
          have := (runs_ok b N).lo_le_hi (s, N - 1)
            (by rw [hL]; exact List.mem_append.mpr (Or.inr (by simp)))
          exact this
        rw [runs_succ_extend b N hbN hpos hbN1 s L0 hL]
        rw [hL] at IH
        rw [List.map_append, List.sum_append] at IH ⊢
        simp only [List.map_singleton, List.sum_singleton] at IH ⊢
        have hN1 : N - 1 + 1 = N := by omega
        have hstep : ∑ i in Finset.Icc s N, g i =
            (∑ i in Finset.Icc s (N - 1), g i) + g N := by
          conv_lhs => rw [show N = (N - 1) + 1 by omega]
          rw [Finset.sum_Icc_succ_top (by omega : s ≤ (N - 1) + 1), hN1]
        rw [hstep, hbN, if_pos rfl, ← IH]
        ring
    · have hb : b N = false := Bool.eq_false_iff.mpr hbN
      rw [runs_succ_false b N hb, IH, hb]
      simp

/-- Total of the demand column after consolidation: the raw values of rows
with positive capacity survive, raw values on zero-capacity rows are
discarded. -/
theorem set_end_colSum (N : ℕ) (cap met : ℕ → ℚ)
    (hnn : ∀ i, i < N → 0 ≤ met i) :
    colSum N (set_energy_demand_at_block_end N cap met) =
      ∑ i in Finset.range N, if 0 < cap i then met i else 0 := by
  have hOK := pairs_ok (hasCapFn cap) N
  have hmain : colSum N (set_energy_demand_at_block_end N cap met) =
      colSum N (fun _ => 0) +
        ((blockPairs (hasCapFn cap) N).map fun p =>
          if 0 < blockSum N cap met p.1 p.2 then blockSum N cap met p.1 p.2
          else 0).sum := by
    unfold set_energy_demand_at_block_end
    refine foldStep_colSum N _ Prod.snd (fun q => blockSum N cap met q.1 q.2)
      ?_ ?_ _ _ (pairs_pw_snd cap N) (fun p hp => hOK.hi_lt p hp)
      (fun p _ => rfl)
    · intro c q x hne
      show (if 0 < blockSum N cap met q.1 q.2 then
          fun r => if r = q.2 then blockSum N cap met q.1 q.2 else c r else c) x = c x
      split
      · simp [Ne.symm hne]
      · rfl
    · intro c q
      show (if 0 < blockSum N cap met q.1 q.2 then
          fun r => if r = q.2 then blockSum N cap met q.1 q.2 else c r else c) q.2 =
        if 0 < blockSum N cap met q.1 q.2 then blockSum N cap met q.1 q.2 else c q.2
      split
      · simp
      · rfl
  rw [hmain]
  have hzero : colSum N (fun _ => 0) = 0 := by simp [colSum]
  rw [hzero, zero_add]
  have hmap : ((blockPairs (hasCapFn cap) N).map fun p =>
      if 0 < blockSum N cap met p.1 p.2 then blockSum N cap met p.1 p.2 else 0) =
      (blockPairs (hasCapFn cap) N).map fun p =>
        ∑ i in Finset.Icc p.1 p.2, met i := by
    apply List.map_congr_left
    intro p hp
    have hIcc : blockSum N cap met p.1 p.2 = ∑ i in Finset.Icc p.1 p.2, met i :=
      blockSum_eq_Icc N cap met p.1 p.2 (hOK.hi_lt p hp) fun i hi =>
        (hasCapFn_iff cap i).mp
          (hOK.inBlock p hp i (Finset.mem_Icc.mp hi).1 (Finset.mem_Icc.mp hi).2)
    have hpos : 0 ≤ blockSum N cap met p.1 p.2 := by
      rw [hIcc]
      refine Finset.sum_nonneg fun i hi => hnn i ?_
      have h1 := (Finset.mem_Icc.mp hi).2
      have h2 := hOK.hi_lt p hp
      omega
    rw [hIcc] at hpos ⊢
    split
    · rfl
    · next h => linarith
  rw [hmap, (blockPairs_eq_runs (hasCapFn cap) N).2, runs_sum]
  refine Finset.sum_congr rfl fun i _ => ?_
  by_cases hc : 0 < cap i
  · rw [if_pos ((hasCapFn_iff cap i).mpr hc), if_pos hc]
  · rw [if_neg fun h => hc ((hasCapFn_iff cap i).mp h), if_neg hc]

/-- Same total for the rest-energy consolidation pass. -/
theorem set_start_colSum (N : ℕ) (cap met : ℕ → ℚ)
    (hnn : ∀ i, i < N → 0 ≤ met i) :
    colSum N (set_rest_energy_at_block_start N cap met) =
      ∑ i in Finset.range N, if 0 < cap i then met i else 0 := by
  have hOK := pairs_ok (hasCapFn cap) N
  have hmain : colSum N (set_rest_energy_at_block_start N cap met) =
      colSum N (fun _ => 0) +
        ((blockPairs (hasCapFn cap) N).map fun p =>
          if 0 < blockSum N cap met p.1 p.2 then blockSum N cap met p.1 p.2
          else 0).sum := by
    unfold set_rest_energy_at_block_start
    refine foldStep_colSum N _ Prod.fst (fun q => blockSum N cap met q.1 q.2)
      ?_ ?_ _ _ (pairs_pw_fst cap N)
      (fun p hp => lt_of_le_of_lt (hOK.lo_le_hi p hp) (hOK.hi_lt p hp))
      (fun p _ => rfl)
    · intro c q x hne
      show (if 0 < blockSum N cap met q.1 q.2 then
          fun r => if r = q.1 then blockSum N cap met q.1 q.2 else c r else c) x = c x
      split
      · simp [Ne.symm hne]
      · rfl
    · intro c q
      show (if 0 < blockSum N cap met q.1 q.2 then
          fun r => if r = q.1 then blockSum N cap met q.1 q.2 else c r else c) q.1 =
        if 0 < blockSum N cap met q.1 q.2 then blockSum N cap met q.1 q.2 else c q.1
      split
      · simp
      · rfl
  rw [hmain]
  have hzero : colSum N (fun _ => 0) = 0 := by simp [colSum]
  rw [hzero, zero_add]
  have hmap : ((blockPairs (hasCapFn cap) N).map fun p =>
      if 0 < blockSum N cap met p.1 p.2 then blockSum N cap met p.1 p.2 else 0) =
      (blockPairs (hasCapFn cap) N).map fun p =>
        ∑ i in Finset.Icc p.1 p.2, met i := by
    apply List.map_congr_left
    intro p hp
    have hIcc : blockSum N cap met p.1 p.2 = ∑ i in Finset.Icc p.1 p.2, met i :=
      blockSum_eq_Icc N cap met p.1 p.2 (hOK.hi_lt p hp) fun i hi =>
        (hasCapFn_iff cap i).mp
          (hOK.inBlock p hp i (Finset.mem_Icc.mp hi).1 (Finset.mem_Icc.mp hi).2)
    have hpos : 0 ≤ blockSum N cap met p.1 p.2 := by
      rw [hIcc]
      refine Finset.sum_nonneg fun i hi => hnn i ?_
      have h1 := (Finset.mem_Icc.mp hi).2
      have h2 := hOK.hi_lt p hp
      omega
    rw [hIcc] at hpos ⊢
    split
    · rfl
    · next h => linarith
  rw [hmap, (blockPairs_eq_runs (hasCapFn cap) N).2, runs_sum]
  refine Finset.sum_congr rfl fun i _ => ?_
  by_cases hc : 0 < cap i
  · rw [if_pos ((hasCapFn_iff cap i).mpr hc), if_pos hc]
  · rw [if_neg fun h => hc ((hasCapFn_iff cap i).mp h), if_neg hc]

/-! ## Claim theorems -/

/-- C4: for every table and every maximal run `[s, e]` of rows with positive
available capacity, the consolidation passes write the sum of the
(non-negative) raw values of the block exactly once: the demand sum at the
block's last row `e` with every other block row holding 0, and symmetrically
the rest-energy sum at the block's first row `s` with every other block row
holding 0. -/
theorem C4_block_placement (N : ℕ) (cap met : ℕ → ℚ) (s e : ℕ)
    (hb : IsBlock (hasCapFn cap) N s e)
    (hnn : ∀ i ∈ Finset.Icc s e, 0 ≤ met i) :
    set_energy_demand_at_block_end N cap met e =
        ∑ i in Finset.Icc s e, met i ∧
      (∀ j, s ≤ j → j < e → set_energy_demand_at_block_end N cap met j = 0) ∧
      set_rest_energy_at_block_start N cap met s =
        ∑ i in Finset.Icc s e, met i ∧
      (∀ j, s < j → j ≤ e → set_rest_energy_at_block_start N cap met j = 0) := by
  have hp : (s, e) ∈ blockPairs (hasCapFn cap) N := mem_pairs_of_isBlock _ N s e hb
  obtain ⟨hse, heN, hin, -, -⟩ := hb
  have hcapIn : ∀ i ∈ Finset.Icc s e, 0 < cap i := fun i hi =>
    (hasCapFn_iff cap i).mp (hin i hi)
  have hIcc : blockSum N cap met s e = ∑ i in Finset.Icc s e, met i :=
    blockSum_eq_Icc N cap met s e heN hcapIn
  have ht0 : 0 ≤ blockSum N cap met s e := by
    rw [hIcc]; exact Finset.sum_nonneg hnn
  have hval : (if 0 < blockSum N cap met s e then blockSum N cap met s e
      else 0) = ∑ i in Finset.Icc s e, met i := by
    split
    · exact hIcc
    · next h =>
      rw [← hIcc]
      linarith
  refine ⟨?_, ?_, ?_, ?_⟩
  · have := set_end_apply_pair N cap met (s, e) hp
    simp only at this
    rw [this, hval]
  · intro j hj1 hj2
    refine set_end_apply_notmem N cap met j fun q hq hqj => ?_
    have hq2 : q = (s, e) := pairs_snd_unique (hasCapFn cap) N (s, e) hp q hq
      (by simp [hqj]; omega) (by simp [hqj]; omega)
    rw [hq2] at hqj
    simp at hqj
    omega
  · have := set_start_apply_pair N cap met (s, e) hp
    simp only at this
    rw [this, hval]
  · intro j hj1 hj2
    refine set_start_apply_notmem N cap met j fun q hq hqj => ?_
    have hq2 : q = (s, e) := pairs_fst_unique (hasCapFn cap) N (s, e) hp q hq
      (by simp [hqj]; omega) (by simp [hqj]; omega)
    rw [hq2] at hqj
    simp at hqj
    omega

/-- Witness for C4 on a concrete 5-row table with blocks `[1,2]` and `[4,4]`
and raw values 5 and 7 inside the block `[1,2]`. -/
theorem C4_block_placement_witness :
    IsBlock (hasCapFn capSmall) 5 1 2 ∧
      (∀ i ∈ Finset.Icc 1 2, (0 : ℚ) ≤ metSmall i) ∧
      set_energy_demand_at_block_end 5 capSmall metSmall 2 = 12 ∧
      set_energy_demand_at_block_end 5 capSmall metSmall 1 = 0 ∧
      set_rest_energy_at_block_start 5 capSmall metSmall 1 = 12 ∧
      set_rest_energy_at_block_start 5 capSmall metSmall 2 = 0 := by
  have hB : IsBlock (hasCapFn capSmall) 5 1 2 := by
    refine ⟨by omega, by omega, ?_, ?_, ?_⟩
    · intro i hi
      fin_cases hi <;> with_unfolding_all decide
    · right; with_unfolding_all decide
    · right; with_unfolding_all decide
  have hnn : ∀ i ∈ Finset.Icc 1 2, (0 : ℚ) ≤ metSmall i := by
    intro i hi
    fin_cases hi <;> with_unfolding_all decide
  have h := C4_block_placement 5 capSmall metSmall 1 2 hB hnn
  have hsum : ∑ i in Finset.Icc 1 2, metSmall i = 12 := by
    with_unfolding_all decide
  refine ⟨hB, hnn, ?_, ?_, ?_, ?_⟩
  · rw [h.1, hsum]
  · exact h.2.1 1 le_rfl (by omega)
  · rw [h.2.2.1, hsum]
  · exact h.2.2.2 2 (by omega) le_rfl

/-- C5: running either consolidation pass twice yields the same table as
running it once (idempotence); stated row by row. -/
theorem C5_consolidation_idempotent (N : ℕ) (cap met : ℕ → ℚ) (j : ℕ) :
    set_energy_demand_at_block_end N cap
        (set_energy_demand_at_block_end N cap met) j =
      set_energy_demand_at_block_end N cap met j ∧
    set_rest_energy_at_block_start N cap
        (set_rest_energy_at_block_start N cap met) j =
      set_rest_energy_at_block_start N cap met j := by
  have hOK := pairs_ok (hasCapFn cap) N
  constructor
  · by_cases hj : ∃ p ∈ blockPairs (hasCapFn cap) N, p.2 = j
    · obtain ⟨p, hp, hpj⟩ := hj
      subst hpj
      set met1 := set_energy_demand_at_block_end N cap met with hmet1
      have hv1 : met1 p.2 = if 0 < blockSum N cap met p.1 p.2 then
          blockSum N cap met p.1 p.2 else 0 := set_end_apply_pair N cap met p hp
      have hIcc1 : blockSum N cap met1 p.1 p.2 =
          ∑ i in Finset.Icc p.1 p.2, met1 i :=
        blockSum_eq_Icc N cap met1 p.1 p.2 (hOK.hi_lt p hp) fun i hi =>
          (hasCapFn_iff cap i).mp (hOK.inBlock p hp i (Finset.mem_Icc.mp hi).1
            (Finset.mem_Icc.mp hi).2)
      have hsingle : ∑ i in Finset.Icc p.1 p.2, met1 i = met1 p.2 := by
        refine Finset.sum_eq_single_of_mem p.2
          (Finset.mem_Icc.mpr ⟨hOK.lo_le_hi p hp, le_rfl⟩) fun i hi hne => ?_
        refine set_end_apply_notmem N cap met i fun q hq hqi => ?_
        have hq2 : q = p := pairs_snd_unique (hasCapFn cap) N p hp q hq
          (by rw [hqi]; exact (Finset.mem_Icc.mp hi).1)
          (by rw [hqi]; exact (Finset.mem_Icc.mp hi).2)
        rw [hq2] at hqi
        exact hne hqi.symm
      have hb1 : blockSum N cap met1 p.1 p.2 =
          if 0 < blockSum N cap met p.1 p.2 then blockSum N cap met p.1 p.2
          else 0 := by
        rw [hIcc1, hsingle, hv1]
      have hend1 := set_end_apply_pair N cap met1 p hp
      rw [hend1, hb1, hv1]
      by_cases h : 0 < blockSum N cap met p.1 p.2 <;> simp [h]
    · push_neg at hj
      rw [set_end_apply_notmem N cap met j hj,
        set_end_apply_notmem N cap _ j hj]
  · by_cases hj : ∃ p ∈ blockPairs (hasCapFn cap) N, p.1 = j
    · obtain ⟨p, hp, hpj⟩ := hj
      subst hpj
      set met1 := set_rest_energy_at_block_start N cap met with hmet1
      have hv1 : met1 p.1 = if 0 < blockSum N cap met p.1 p.2 then
          blockSum N cap met p.1 p.2 else 0 := set_start_apply_pair N cap met p hp
      have hIcc1 : blockSum N cap met1 p.1 p.2 =
          ∑ i in Finset.Icc p.1 p.2, met1 i :=
        blockSum_eq_Icc N cap met1 p.1 p.2 (hOK.hi_lt p hp) fun i hi =>
          (hasCapFn_iff cap i).mp (hOK.inBlock p hp i (Finset.mem_Icc.mp hi).1
            (Finset.mem_Icc.mp hi).2)
      have hsingle : ∑ i in Finset.Icc p.1 p.2, met1 i = met1 p.1 := by
        refine Finset.sum_eq_single_of_mem p.1
          (Finset.mem_Icc.mpr ⟨le_rfl, hOK.lo_le_hi p hp⟩) fun i hi hne => ?_
        refine set_start_apply_notmem N cap met i fun q hq hqi => ?_
        have hq2 : q = p := pairs_fst_unique (hasCapFn cap) N p hp q hq
          (by rw [hqi]; exact (Finset.mem_Icc.mp hi).1)
          (by rw [hqi]; exact (Finset.mem_Icc.mp hi).2)
        rw [hq2] at hqi
        exact hne hqi.symm
      have hb1 : blockSum N cap met1 p.1 p.2 =
          if 0 < blockSum N cap met p.1 p.2 then blockSum N cap met p.1 p.2
          else 0 := by
        rw [hIcc1, hsingle, hv1]
      have hstart1 := set_start_apply_pair N cap met1 p hp
      rw [hstart1, hb1, hv1]
      by_cases h : 0 < blockSum N cap met p.1 p.2 <;> simp [h]
    · push_neg at hj
      rw [set_start_apply_notmem N cap met j hj,
        set_start_apply_notmem N cap _ j hj]

/-- C1 (amended): consolidation preserves exactly the raw samples that sit on
rows with positive available capacity — the column total after either pass
equals the total of the raw column restricted to positive-capacity rows.
Raw contributions on rows outside every block are discarded (reset to 0 and
never re-added), not folded into the nearest block. -/
theorem C1_conservation_on_positive_rows (N : ℕ) (cap met : ℕ → ℚ)
    (hnn : ∀ i, i < N → 0 ≤ met i) :
    colSum N (set_energy_demand_at_block_end N cap met) =
        (∑ i in Finset.range N, if 0 < cap i then met i else 0) ∧
      colSum N (set_rest_energy_at_block_start N cap met) =
        ∑ i in Finset.range N, if 0 < cap i then met i else 0 :=
  ⟨set_end_colSum N cap met hnn, set_start_colSum N cap met hnn⟩

/-- Witness for the amended C1 on the concrete 5-row table: the raw samples
5 and 7 sit on capacity rows and survive with total 12. -/
theorem C1_conservation_on_positive_rows_witness :
    (∀ i, i < 5 → (0 : ℚ) ≤ metSmall i) ∧
      colSum 5 (set_energy_demand_at_block_end 5 capSmall metSmall) = 12 ∧
      colSum 5 (set_rest_energy_at_block_start 5 capSmall metSmall) = 12 := by
  have hnn : ∀ i, i < 5 → (0 : ℚ) ≤ metSmall i := by
    intro i hi
    interval_cases i <;> with_unfolding_all decide
  have h := C1_conservation_on_positive_rows 5 capSmall metSmall hnn
  refine ⟨hnn, ?_, ?_⟩
  · rw [h.1]; with_unfolding_all decide
  · rw [h.2]; with_unfolding_all decide

/-! Pointwise closed forms of the table built from `groupTueOffWedTour`,
proved without bulk evaluation. -/

theorem drawUnits_fst_length (n st : ℕ) : (drawUnits n st).1.length = n := by
  induction n generalizing st with
  | zero => rfl
  | succ n IH => simp [drawUnits, IH]

theorem pyRound_zero : pyRound 0 = 0 := by
  unfold pyRound
  norm_num

/-- With the all-zero deviation config every drawn deviation is 0, and the
generator state advances exactly as the draw does. -/
theorem generate_uniform0 (n st : ℕ) :
    generate_time_deviations n devUniform0 st =
      (List.replicate n 0, (drawUnits n st).2) := by
  unfold generate_time_deviations devUniform0
  simp only [Option.getD_some, if_pos rfl]
  refine Prod.ext ?_ rfl
  simp only
  have hmap : ∀ u : ℚ, pyRound (-0 + (0 - -0) * u) = 0 := by
    intro u
    have : (-0 + (0 - -0) * u : ℚ) = 0 := by ring
    rw [this, pyRound_zero]
  calc (drawUnits n st).1.map (fun u => pyRound (-0 + (0 - -0) * u))
      = (drawUnits n st).1.map (fun _ => (0 : ℤ)) :=
        List.map_congr_left fun u _ => hmap u
    _ = List.replicate n 0 := by
        rw [List.map_const', drawUnits_fst_length]

/-- At daily resolution, the slice of a calendar day is exactly its own row. -/
theorem dayMask_1440 (d r : ℕ) : dayMask 1440 d r = decide (d = r) := by
  unfold dayMask
  rw [decide_eq_decide]
  omega

/-- Reading one component through a fold whose per-step effect on that
component does not depend on the accumulated state. -/
theorem foldl_proj {α : Type} (step : α → ℕ → α) (pr : α → ℚ) (e : ℕ → ℚ) :
    ∀ (ds : List ℕ) (a : α), (∀ x, ∀ d ∈ ds, pr (step x d) = pr x + e d) →
      pr (ds.foldl step a) = pr a + (ds.map e).sum := by
  intro ds
  induction ds with
  | nil => intro a _; simp
  | cons d ds IH =>
    intro a h
    rw [List.foldl_cons, IH _ fun x d2 hd2 => h x d2 (List.mem_cons_of_mem d hd2),
      h a d (List.mem_cons_self d ds), List.map_cons, List.sum_cons]
    ring

theorem sum_map_range_ite (r : ℕ) (f : ℕ → ℚ) :
    ∀ D : ℕ, ((List.range D).map fun d => if d = r then f d else 0).sum =
      if r < D then f r else 0 := by
  intro D
  induction D with
  | zero => simp
  | succ D IH =>
    rw [List.range_succ, List.map_append, List.sum_append]
    simp only [List.map_singleton, List.sum_singleton]
    by_cases h : D = r
    · subst h
      rw [if_pos rfl, IH, if_neg (by omega), if_pos (by omega)]
      ring
    · rw [if_neg h, IH]
      by_cases h2 : r < D
      · rw [if_pos h2, if_pos (by omega)]
        ring
      · rw [if_neg h2, if_neg (by omega)]
        ring

/-- Closed form of the capacity-credit loop at daily resolution. -/
theorem addCapacityPhase_apply_1440 (y : ℕ) (g : VehicleGroup) (col : ℕ → ℚ)
    (r : ℕ) :
    addCapacityPhase y 1440 g col r =
      col r + (if r < daysInYear y ∧ r ∉ exclusionDays y then
        g.akkuKapazitaet * g.anzahl else 0) := by
  unfold addCapacityPhase
  rw [foldl_proj _ (fun cl => cl r)
    (fun d => if d = r then
      (if r ∈ exclusionDays y then 0 else g.akkuKapazitaet * g.anzahl) else 0)
    (List.range (daysInYear y)) col ?_]
  · rw [sum_map_range_ite]
    by_cases h1 : r < daysInYear y
    · rw [if_pos h1]
      by_cases h2 : r ∈ exclusionDays y
      · rw [if_pos h2, if_neg (by tauto)]
      · rw [if_neg h2, if_pos ⟨h1, h2⟩]
    · rw [if_neg h1, if_neg (by tauto)]
  · intro x d _
    simp only
    by_cases hd : d ∈ exclusionDays y
    · rw [if_pos hd]
      by_cases hdr : d = r
      · subst hdr
        rw [if_pos rfl, if_pos hd]
        ring
      · rw [if_neg hdr]
        ring
    · rw [if_neg hd]
      unfold updCol
      simp only
      rw [dayMask_1440]
      by_cases hdr : d = r
      · subst hdr
        rw [if_pos (by simp), if_pos rfl, if_neg hd]
      · rw [if_neg (by simp [hdr]), if_neg hdr]
        ring

theorem jan1Weekday_2001 : jan1Weekday 2001 = 0 := by decide

theorem weekdayOfDay_2001 (d : ℕ) : weekdayOfDay 2001 d = d % 7 := by
  unfold weekdayOfDay
  rw [jan1Weekday_2001]
  omega

theorem apply_time_deviation_self (b : ℕ) (hb : b < 1440) :
    apply_time_deviation b 0 = b := by
  unfold apply_time_deviation
  rw [add_zero]
  rw [Int.emod_eq_of_lt (by omega) (by exact_mod_cast hb)]
  simp

/-- Per-day effect of the plan of `groupTueOffWedTour` on the capacity
column: Tuesdays subtract the full capacity on their own row, tour days touch
only demand and rest energy. -/
theorem processEntry_eq_steht (y s : ℕ) (g : VehicleGroup) (d : ℕ)
    (c : Cols) (st : ℕ)
    (h : (g.wochenplan (weekdayOfDay y d)).getD DayEntry.steht =
      DayEntry.steht) :
    processEntry y s g d c st = (c, st) := by
  unfold processEntry
  rw [h]

theorem processEntry_eq_nicht (y s : ℕ) (g : VehicleGroup) (d : ℕ)
    (c : Cols) (st : ℕ)
    (h : (g.wochenplan (weekdayOfDay y d)).getD DayEntry.steht =
      DayEntry.nicht_verfuegbar) :
    processEntry y s g d c st =
      ({ c with
          cap := (updCol (dayMask s d)
            (fun x => x - g.akkuKapazitaet * g.anzahl) c.cap) },
        st) := by
  unfold processEntry
  rw [h]

theorem processEntry_eq_tour (y s : ℕ) (g : VehicleGroup) (d : ℕ)
    (c : Cols) (st : ℕ) (km : ℚ) (ab rk : ℕ)
    (h : (g.wochenplan (weekdayOfDay y d)).getD DayEntry.steht =
      DayEntry.tour km ab rk) :
    processEntry y s g d c st = handleTripDay y s d none km ab rk g c st := by
  unfold processEntry
  rw [h]

theorem getD_replicate_zero (n i : ℕ) :
    (List.replicate n (0 : ℤ)).getD i 0 = 0 := by
  induction n generalizing i with
  | zero => simp
  | succ n IH =>
    cases i with
    | zero => rfl
    | succ i => exact IH i

/-- The Wednesday day trip of `groupTueOffWedTour` at daily resolution:
no capacity row falls inside the absence interval, the demand sample lands on
the previous row, the rest-energy sample on the trip's own row. -/
theorem g1_tripStep (d : ℕ) (hd2 : 2 ≤ d) (hd3 : d ≤ 359) (c : Cols) :
    vehicleTripStep 2001 1440 d none 5 10 1 0 1380 0 0 c =
      { cap := c.cap, dem := addAt (d - 1) 5 c.dem,
        rest := addAt d 5 c.rest } := by
  have hlt : tripLeaveMin d 0 0 = d * 1440 := by
    unfold tripLeaveMin
    rw [apply_time_deviation_self 0 (by omega)]
    omega
  have hrt : tripReturnMin d none 0 1380 0 0 = d * 1440 + 1380 := by
    unfold tripReturnMin returnDayOf
    rw [apply_time_deviation_self 0 (by omega),
      apply_time_deviation_self 1380 (by omega)]
    rw [if_pos (by omega : (1380 : ℕ) > 0)]
  have hyE : yearEndMin 2001 1440 = 524160 := by decide
  have hNr : numRows 2001 1440 = 365 := by decide
  simp only [vehicleTripStep, hlt, hrt, hyE, hNr]
  rw [if_neg (by omega : ¬ d * 1440 + 1380 > 524160)]
  have hdiv : (d * 1440 + 1380) / 1440 = d := by omega
  have hdiv2 : d * 1440 / 1440 = d := by omega
  rw [hdiv, hdiv2]
  rw [if_neg (by omega : ¬ (d * 1440 + 1440 ≤ d * 1440 + 1380))]
  rw [if_pos (by omega : 1 ≤ d ∧ d - 1 < 365)]
  rw [if_pos (by constructor <;> omega : d * 1440 ≤ 524160 ∧ d < 365)]
  have hmax : max ((10 : ℚ) - 5 * 1) 0 = 5 := by norm_num
  have h5 : (5 : ℚ) * 1 = 5 := by norm_num
  rw [hmax, h5]

/-- The full Wednesday entry of `groupTueOffWedTour`: deviations are all 0,
one vehicle, and the trip step above, with the generator state advanced by the
two draws. -/
theorem g1_handleTripDay (d : ℕ) (hd2 : 2 ≤ d) (hd3 : d ≤ 359) (c : Cols)
    (st : ℕ) :
    handleTripDay 2001 1440 d none 5 0 1380 groupTueOffWedTour c st =
      ({ cap := c.cap, dem := addAt (d - 1) 5 c.dem, rest := addAt d 5 c.rest },
        (drawUnits 1 (drawUnits 1 st).2).2) := by
  simp only [handleTripDay,
    show groupTueOffWedTour.zeitverzerrung = devUniform0 from rfl,
    show groupTueOffWedTour.anzahl = 1 from rfl,
    show groupTueOffWedTour.akkuKapazitaet = 10 from rfl,
    show groupTueOffWedTour.verbrauch = 1 from rfl,
    generate_uniform0]
  rw [show List.range 1 = [0] from rfl, List.foldl_cons, List.foldl_nil]
  simp only [getD_replicate_zero]
  rw [g1_tripStep d hd2 hd3 c]

/-- Per-day effect of the plan of `groupTueOffWedTour` on the capacity
column: Tuesdays subtract the full capacity on their own row, tour days touch
only demand and rest energy. -/
theorem g1_entry_cap_effect (d r : ℕ) (hd : d < 365) (p : Cols × ℕ) :
    (if d ∈ exclusionDays 2001 then p
      else processEntry 2001 1440 groupTueOffWedTour d p.1 p.2).1.cap r =
      p.1.cap r +
        (if d = r then
          (if r ∉ exclusionDays 2001 ∧ r % 7 = 1 then -10 else 0) else 0) := by
  by_cases hx : d ∈ exclusionDays 2001
  · rw [if_pos hx]
    by_cases hdr : d = r
    · subst hdr
      rw [if_pos rfl, if_neg fun hc => hc.1 hx]
      ring
    · rw [if_neg hdr]
      ring
  · rw [if_neg hx]
    by_cases h1 : d % 7 = 1
    · rw [processEntry_eq_nicht 2001 1440 groupTueOffWedTour d p.1 p.2
        (by rw [weekdayOfDay_2001]; simp [groupTueOffWedTour, h1])]
      unfold updCol
      simp only [dayMask_1440,
        show groupTueOffWedTour.akkuKapazitaet = 10 from rfl,
        show groupTueOffWedTour.anzahl = 1 from rfl, Nat.cast_one]
      by_cases hdr : d = r
      · subst hdr
        rw [if_pos (by simp), if_pos rfl, if_pos ⟨hx, h1⟩]
        ring
      · rw [if_neg (by simp [hdr]), if_neg hdr]
        ring
    · by_cases h2 : d % 7 = 2
      · rw [processEntry_eq_tour 2001 1440 groupTueOffWedTour d p.1 p.2 5 0 1380
          (by rw [weekdayOfDay_2001]; simp [groupTueOffWedTour, h1, h2])]
        have hd2 : 2 ≤ d := by omega
        have hd3 : d ≤ 359 := by omega
        rw [g1_handleTripDay d hd2 hd3 p.1 p.2]
        simp only
        by_cases hdr : d = r
        · subst hdr
          rw [if_pos rfl, if_neg fun hc => h1 hc.2]
          ring
        · rw [if_neg hdr]
          ring
      · rw [processEntry_eq_steht 2001 1440 groupTueOffWedTour d p.1 p.2
          (by rw [weekdayOfDay_2001]; simp [groupTueOffWedTour, h1, h2])]
        simp only
        by_cases hdr : d = r
        · subst hdr
          rw [if_pos rfl, if_neg fun hc => h1 hc.2]
          ring
        · rw [if_neg hdr]
          ring

/-- Per-day effect of the plan of `groupTueOffWedTour` on the demand column:
only the Wednesday trips write, each adding 5 kWh on the preceding row. -/
theorem g1_entry_dem_effect (d r : ℕ) (hd : d < 365) (p : Cols × ℕ) :
    (if d ∈ exclusionDays 2001 then p
      else processEntry 2001 1440 groupTueOffWedTour d p.1 p.2).1.dem r =
      p.1.dem r +
        (if d = r + 1 then
          (if (r + 1) % 7 = 2 ∧ (r + 1) ∉ exclusionDays 2001 then 5 else 0)
          else 0) := by
  by_cases hx : d ∈ exclusionDays 2001
  · rw [if_pos hx]
    by_cases hdr : d = r + 1
    · subst hdr
      rw [if_pos rfl, if_neg fun hc => hc.2 hx]
      ring
    · rw [if_neg hdr]
      ring
  · rw [if_neg hx]
    by_cases h1 : d % 7 = 1
    · rw [processEntry_eq_nicht 2001 1440 groupTueOffWedTour d p.1 p.2
        (by rw [weekdayOfDay_2001]; simp [groupTueOffWedTour, h1])]
      show p.1.dem r = _
      by_cases hdr : d = r + 1
      · subst hdr
        rw [if_pos rfl, if_neg fun hc => by omega]
        ring
      · rw [if_neg hdr]
        ring
    · by_cases h2 : d % 7 = 2
      · rw [processEntry_eq_tour 2001 1440 groupTueOffWedTour d p.1 p.2 5 0 1380
          (by rw [weekdayOfDay_2001]; simp [groupTueOffWedTour, h1, h2])]
        have hd2 : 2 ≤ d := by omega
        have hd3 : d ≤ 359 := by omega
        rw [g1_handleTripDay d hd2 hd3 p.1 p.2]
        unfold addAt
        simp only
        by_cases hdr : r = d - 1
        · rw [if_pos hdr]
          have hd1 : d = r + 1 := by omega
          rw [if_pos hd1, if_pos ⟨by omega, by rw [← hd1]; exact hx⟩]
        · rw [if_neg hdr, if_neg (by omega)]
          ring
      · rw [processEntry_eq_steht 2001 1440 groupTueOffWedTour d p.1 p.2
          (by rw [weekdayOfDay_2001]; simp [groupTueOffWedTour, h1, h2])]
        simp only
        by_cases hdr : d = r + 1
        · subst hdr
          rw [if_pos rfl, if_neg fun hc => by omega]
          ring
        · rw [if_neg hdr]
          ring

/-- Pointwise closed form of the capacity column of the C1 test table:
10 on every non-excluded non-Tuesday row of the year, 0 elsewhere. -/
theorem g1_cap_closed (r : ℕ) :
    (buildRawTable [groupTueOffWedTour] 2001 1440 0).1.cap r =
      max ((if r < 365 ∧ r ∉ exclusionDays 2001 then 10 else 0) +
        (if r < 365 ∧ r ∉ exclusionDays 2001 ∧ r % 7 = 1 then -10 else 0))
        0 := by
  have hbuild : buildRawTable [groupTueOffWedTour] 2001 1440 0 =
      processGroup 2001 1440 (initCols, 0) groupTueOffWedTour := rfl
  rw [hbuild]
  show max ((entriesPhase 2001 1440 groupTueOffWedTour
    { initCols with
        cap := addCapacityPhase 2001 1440 groupTueOffWedTour initCols.cap }
    0).1.cap r) 0 = _
  have hD : daysInYear 2001 = 365 := by decide
  have hfold := foldl_proj
    (fun p d => if d ∈ exclusionDays 2001 then p
      else processEntry 2001 1440 groupTueOffWedTour d p.1 p.2)
    (fun p => p.1.cap r)
    (fun d => if d = r then
      (if r ∉ exclusionDays 2001 ∧ r % 7 = 1 then -10 else 0) else 0)
    (List.range (daysInYear 2001))
    ({ initCols with
        cap := addCapacityPhase 2001 1440 groupTueOffWedTour initCols.cap },
      0)
    (fun x d hd => g1_entry_cap_effect d r
      (by rw [hD] at hd; exact List.mem_range.mp hd) x)
  simp only at hfold
  unfold entriesPhase
  rw [hfold, hD, sum_map_range_ite,
    addCapacityPhase_apply_1440 2001 groupTueOffWedTour initCols.cap r, hD]
  show max ((0 + _) + _) 0 = _
  rw [zero_add]
  congr 2
  · show (if r < 365 ∧ r ∉ exclusionDays 2001 then
      groupTueOffWedTour.akkuKapazitaet * (groupTueOffWedTour.anzahl : ℚ)
      else 0) = _
    norm_num [show groupTueOffWedTour.akkuKapazitaet = 10 from rfl,
      show groupTueOffWedTour.anzahl = 1 from rfl]
  · by_cases h1 : r < 365
    · rw [if_pos h1]
      by_cases h2 : r ∉ exclusionDays 2001 ∧ r % 7 = 1
      · rw [if_pos h2, if_pos ⟨h1, h2.1, h2.2⟩]
      · rw [if_neg h2, if_neg fun hc => h2 ⟨hc.2.1, hc.2.2⟩]
    · rw [if_neg h1, if_neg fun hc => h1 hc.1]

/-- Pointwise closed form of the raw demand column of the C1 test table:
5 kWh on the row before every processed Wednesday, 0 elsewhere. -/
theorem g1_dem_closed (r : ℕ) :
    (buildRawTable [groupTueOffWedTour] 2001 1440 0).1.dem r =
      if r + 1 < 365 ∧ (r + 1) % 7 = 2 ∧ (r + 1) ∉ exclusionDays 2001 then 5
      else 0 := by
  have hbuild : buildRawTable [groupTueOffWedTour] 2001 1440 0 =
      processGroup 2001 1440 (initCols, 0) groupTueOffWedTour := rfl
  rw [hbuild]
  show (entriesPhase 2001 1440 groupTueOffWedTour
    { initCols with
        cap := addCapacityPhase 2001 1440 groupTueOffWedTour initCols.cap }
    0).1.dem r = _
  have hD : daysInYear 2001 = 365 := by decide
  have hfold := foldl_proj
    (fun p d => if d ∈ exclusionDays 2001 then p
      else processEntry 2001 1440 groupTueOffWedTour d p.1 p.2)
    (fun p => p.1.dem r)
    (fun d => if d = r + 1 then
      (if (r + 1) % 7 = 2 ∧ (r + 1) ∉ exclusionDays 2001 then 5 else 0)
      else 0)
    (List.range (daysInYear 2001))
    ({ initCols with
        cap := addCapacityPhase 2001 1440 groupTueOffWedTour initCols.cap },
      0)
    (fun x d hd => g1_entry_dem_effect d r
      (by rw [hD] at hd; exact List.mem_range.mp hd) x)
  simp only at hfold
  unfold entriesPhase
  rw [hfold, hD, sum_map_range_ite]
  show (0 : ℚ) + _ = _
  rw [zero_add]
  by_cases h1 : r + 1 < 365
  · rw [if_pos h1]
    by_cases h2 : (r + 1) % 7 = 2 ∧ (r + 1) ∉ exclusionDays 2001
    · rw [if_pos h2, if_pos ⟨h1, h2.1, h2.2⟩]
    · rw [if_neg h2, if_neg fun hc => h2 ⟨hc.2.1, hc.2.2⟩]
  · rw [if_neg h1, if_neg fun hc => h1 hc.1]

theorem exclusionDays_2001 : exclusionDays 2001 = [0, 1, 363, 364] := by
  decide

/-- C1 (counterexample): with one vehicle that is unavailable on Tuesdays and
departs every Wednesday at 00:00, each raw demand sample lands on the Tuesday
row before departure, which has zero capacity; consolidation discards all of
them, so the consolidated demand total (0) differs from the raw demand total
(260) recorded by the schedule simulator. -/
theorem C1_conservation_counterexample :
    colSum (numRows 2001 1440)
        (build_cluster_timeseries [groupTueOffWedTour] 2001 1440 0).dem ≠
      colSum (numRows 2001 1440)
        (buildRawTable [groupTueOffWedTour] 2001 1440 0).1.dem := by
  have hN : numRows 2001 1440 = 365 := by decide
  have hnn : ∀ i, i < 365 →
      0 ≤ (buildRawTable [groupTueOffWedTour] 2001 1440 0).1.dem i := by
    intro i _
    rw [g1_dem_closed]
    split
    · norm_num
    · exact le_rfl
  have hEq : (build_cluster_timeseries [groupTueOffWedTour] 2001 1440 0).dem =
      set_energy_demand_at_block_end (numRows 2001 1440)
        (buildRawTable [groupTueOffWedTour] 2001 1440 0).1.cap
        (buildRawTable [groupTueOffWedTour] 2001 1440 0).1.dem := rfl
  rw [hEq, hN, set_end_colSum 365 _ _ hnn]
  have hLHS : (∑ i in Finset.range 365,
      if 0 < (buildRawTable [groupTueOffWedTour] 2001 1440 0).1.cap i then
        (buildRawTable [groupTueOffWedTour] 2001 1440 0).1.dem i else 0) =
      0 := by
    refine Finset.sum_eq_zero fun i hi => ?_
    rw [g1_cap_closed, g1_dem_closed]
    by_cases hdem : i + 1 < 365 ∧ (i + 1) % 7 = 2 ∧
        (i + 1) ∉ exclusionDays 2001
    · -- a demand row: its own capacity vanishes
      have hcap0 : max ((if i < 365 ∧ i ∉ exclusionDays 2001 then (10 : ℚ)
          else 0) +
          (if i < 365 ∧ i ∉ exclusionDays 2001 ∧ i % 7 = 1 then -10 else 0))
          0 = 0 := by
        have h7 : i % 7 = 1 := by
          have := hdem.2.1
          omega
        by_cases hx : i ∈ exclusionDays 2001
        · rw [if_neg fun hc => hc.2 hx, if_neg fun hc => hc.2.1 hx]
          norm_num
        · rw [if_pos ⟨by omega, hx⟩, if_pos ⟨by omega, hx, h7⟩]
          norm_num
      rw [hcap0]
      simp
    · rw [if_neg hdem]
      simp
  have hpos : 0 < colSum 365
      (buildRawTable [groupTueOffWedTour] 2001 1440 0).1.dem := by
    unfold colSum
    refine Finset.sum_pos' (fun i hi => hnn i (Finset.mem_range.mp hi)) ?_
    refine ⟨1, Finset.mem_range.mpr (by omega), ?_⟩
    rw [g1_dem_closed]
    rw [if_pos ⟨by omega, by omega, by rw [exclusionDays_2001]; simp⟩]
    norm_num
  rw [hLHS]
  exact ne_of_lt hpos

/-! ## Deviation generator claims -/

/-- C6: when a seed is set, the generator output depends only on the seed and
the count, not on the incoming generator state — two calls with the same seed
and count, in whatever state the process is (also across process runs), yield
identical deviation sequences. -/
theorem C6_deviation_determinism (n : ℕ) (config : DeviationConfig) (sd : ℤ)
    (st1 st2 : ℕ) (h : config.seed = some sd) :
    (generate_time_deviations n config st1).1 =
      (generate_time_deviations n config st2).1 := by
  simp only [generate_time_deviations, h]

/-- Witness for C6: seed 42, count 3, two arbitrary distinct states. -/
theorem C6_deviation_determinism_witness :
    devSeeded.seed = some 42 ∧
      (generate_time_deviations 3 devSeeded 0).1 =
        (generate_time_deviations 3 devSeeded 999).1 :=
  ⟨rfl, C6_deviation_determinism 3 devSeeded 42 0 999 rfl⟩

/-- C2 (amended): when a seed is set, every call to the generator first
reseeds the shared state, so the departure-deviation list and the
return-deviation list of a group-day — the second drawn from the state left
behind by the first — are *identical*, not generally different. -/
theorem C2_seeded_departure_return_identical (n : ℕ)
    (config : DeviationConfig) (sd : ℤ) (st : ℕ)
    (h : config.seed = some sd) :
    (generate_time_deviations n config
        (generate_time_deviations n config st).2).1 =
      (generate_time_deviations n config st).1 := by
  simp only [generate_time_deviations, h]

/-- C2 (counterexample): a concrete seeded run in which the two sequential
calls of the schedule simulator produce exactly the same deviation list for
every vehicle index — refuting that they are generally different. -/
theorem C2_seeded_departure_return_counterexample :
    (generate_time_deviations 3 devSeeded
        (generate_time_deviations 3 devSeeded 0).2).1 =
      (generate_time_deviations 3 devSeeded 0).1 ∧
      (generate_time_deviations 3 devSeeded 0).1 = [-15, -25, 5] := by
  constructor
  · with_unfolding_all decide
  · with_unfolding_all decide

/-- Witness for the amended C2. -/
theorem C2_seeded_departure_return_identical_witness :
    devSeeded.seed = some 42 ∧
      (generate_time_deviations 3 devSeeded
          (generate_time_deviations 3 devSeeded 0).2).1 =
        (generate_time_deviations 3 devSeeded 0).1 :=
  ⟨rfl, C2_seeded_departure_return_identical 3 devSeeded 42 0 rfl⟩

theorem drawUnits_mem (n st : ℕ) :
    ∀ u ∈ (drawUnits n st).1, 0 ≤ u ∧ u < 1 := by
  induction n generalizing st with
  | zero => intro u hu; cases hu
  | succ n IH =>
    intro u hu
    simp only [drawUnits, rngUnit, List.mem_cons] at hu
    rcases hu with h | h
    · subst h
      constructor
      · positivity
      · rw [div_lt_one (by norm_num)]
        have : rngNext st < 4294967296 := Nat.mod_lt _ (by norm_num)
        exact_mod_cast this
    · exact IH _ u h

/-- Both Python and numpy round half to even; in every case the rounded value
differs from the input by at most one half. -/
theorem pyRound_abs_sub (x : ℚ) : |(pyRound x : ℚ) - x| ≤ 1 / 2 := by
  unfold pyRound
  by_cases hf : Int.fract x = 1 / 2
  · have hx : x = (⌊x⌋ : ℚ) + 1 / 2 := by
      have h := Int.floor_add_fract x
      rw [hf] at h
      linarith
    rw [if_pos hf]
    by_cases he : ⌊x⌋ % 2 = 0
    · rw [if_pos he, abs_le]
      constructor <;> linarith
    · rw [if_neg he, abs_le]
      push_cast
      constructor <;> linarith
  · rw [if_neg hf, abs_sub_comm]
    exact abs_sub_round x

theorem npClip_bounds (a m : ℚ) (hm : 0 ≤ m) :
    -m ≤ npClip a (-m) m ∧ npClip a (-m) m ≤ m := by
  unfold npClip
  exact ⟨le_min (le_max_right a (-m)) (by linarith), min_le_right _ _⟩

/-- A value taken from `[-m, m]` rounds to an integer in
`[-⌊m + 1/2⌋, ⌊m + 1/2⌋]`. -/
theorem pyRound_interval (m x : ℚ) (h1 : -m ≤ x) (h2 : x ≤ m) :
    -⌊m + 1 / 2⌋ ≤ pyRound x ∧ pyRound x ≤ ⌊m + 1 / 2⌋ := by
  have habs := pyRound_abs_sub x
  rw [abs_le] at habs
  constructor
  · rw [neg_le]
    apply Int.le_floor.mpr
    push_cast
    linarith
  · apply Int.le_floor.mpr
    linarith

/-- C7 (amended): every generated deviation lies within
`[-⌊m + 1/2⌋, ⌊m + 1/2⌋]` where `m` is the effective clip bound of the
config; when `m` is an integer this interval is `[-m, m]`, but for fractional
`m` the rounding step can push a value up to half a minute past `m`. -/
theorem C7_deviation_bounds (n : ℕ) (config : DeviationConfig) (st : ℕ)
    (hm : 0 ≤ config.max_abweichung_minuten.getD 15 ∧
      0 ≤ config.max_abweichung_minuten.getD 30) :
    ∀ d ∈ (generate_time_deviations n config st).1,
      -⌊(if config.typ.getD "normal" = "uniform" then
            config.max_abweichung_minuten.getD 15
          else config.max_abweichung_minuten.getD 30) + 1 / 2⌋ ≤ d ∧
        d ≤ ⌊(if config.typ.getD "normal" = "uniform" then
            config.max_abweichung_minuten.getD 15
          else config.max_abweichung_minuten.getD 30) + 1 / 2⌋ := by
  intro d hd
  by_cases ht : config.typ.getD "normal" = "uniform"
  · rw [if_pos ht]
    simp only [generate_time_deviations, ht, eq_self_iff_true, if_true,
      List.mem_map] at hd
    obtain ⟨u, hu, hdu⟩ := hd
    obtain ⟨hu0, hu1⟩ := drawUnits_mem n _ u hu
    have hx1 : -config.max_abweichung_minuten.getD 15 +
        (config.max_abweichung_minuten.getD 15 -
          -config.max_abweichung_minuten.getD 15) * u ≤
        config.max_abweichung_minuten.getD 15 := by nlinarith [hm.1]
    have hx2 : -config.max_abweichung_minuten.getD 15 ≤
        -config.max_abweichung_minuten.getD 15 +
        (config.max_abweichung_minuten.getD 15 -
          -config.max_abweichung_minuten.getD 15) * u := by nlinarith [hm.1]
    exact hdu ▸ pyRound_interval _ _ hx2 hx1
  · rw [if_neg ht]
    simp only [generate_time_deviations, ht, if_false, List.mem_map] at hd
    obtain ⟨u, hu, hdu⟩ := hd
    obtain ⟨h1, h2⟩ := npClip_bounds
      (config.stddev_minuten.getD 10 * stdNormal u)
      (config.max_abweichung_minuten.getD 30) hm.2
    exact hdu ▸ pyRound_interval _ _ h1 h2

/-- Counterexample for C7 as stated: with a fractional clip bound of 3/5
minutes the single generated deviation is −1 minute, outside
`[-3/5, 3/5]` — the absolute deviation exceeds `max_abweichung_minuten`. -/
theorem C7_deviation_bounds_counterexample :
    devNarrow.max_abweichung_minuten = some (3 / 5) ∧
      ¬ ∀ d ∈ (generate_time_deviations 1 devNarrow 0).1,
          -(3 / 5 : ℚ) ≤ (d : ℚ) ∧ (d : ℚ) ≤ 3 / 5 := by
  constructor
  · rfl
  · with_unfolding_all decide

/-- Witness for the amended C7 at the fractional-bound config. -/
theorem C7_deviation_bounds_witness :
    (0 ≤ devNarrow.max_abweichung_minuten.getD 15 ∧
      0 ≤ devNarrow.max_abweichung_minuten.getD 30) ∧
    ∀ d ∈ (generate_time_deviations 1 devNarrow 0).1,
      -⌊(if devNarrow.typ.getD "normal" = "uniform" then
            devNarrow.max_abweichung_minuten.getD 15
          else devNarrow.max_abweichung_minuten.getD 30) + 1 / 2⌋ ≤ d ∧
        d ≤ ⌊(if devNarrow.typ.getD "normal" = "uniform" then
            devNarrow.max_abweichung_minuten.getD 15
          else devNarrow.max_abweichung_minuten.getD 30) + 1 / 2⌋ :=
  ⟨⟨by with_unfolding_all decide, by with_unfolding_all decide⟩,
    C7_deviation_bounds 1 devNarrow 0
      ⟨by with_unfolding_all decide, by with_unfolding_all decide⟩⟩

/-! ## Return-day rule and midnight wrap -/

theorem apply_time_deviation_lt (base : ℕ) (dev : ℤ) :
    apply_time_deviation base dev < 1440 := by
  unfold apply_time_deviation
  have h := Int.emod_lt_of_pos ((base : ℤ) + dev) (by norm_num : (0:ℤ) < 1440)
  omega

theorem tripReturnMin_div (d : ℕ) (offset : Option ℕ) (ab rk : ℕ)
    (devL devR : ℤ) :
    tripReturnMin d offset ab rk devL devR / 1440 =
      returnDayOf d offset (apply_time_deviation ab devL)
        (apply_time_deviation rk devR) := by
  have hc := apply_time_deviation_lt rk devR
  unfold tripReturnMin
  omega

/-- C8: the calendar day of the return timestamp is the trip's own day when
the deviated return clock time is strictly later than the deviated departure
clock time and the next day otherwise; a day trip departing 23:00 and
returning 01:00 with zero deviation returns on the following day; a
multi-day trip uses `day + days_later` when `days_later ≠ 0` and falls back
to the same-day/next-day rule when `days_later = 0`. -/
theorem C8_return_day (d : ℕ) (offset : Option ℕ) (ab rk : ℕ)
    (devL devR : ℤ) :
    (offset = none ∨ offset = some 0 →
      tripReturnMin d offset ab rk devL devR / 1440 =
        if apply_time_deviation ab devL < apply_time_deviation rk devR
        then d else d + 1) ∧
    (∀ o : ℕ, offset = some o → o ≠ 0 →
      tripReturnMin d offset ab rk devL devR / 1440 = d + o) ∧
    tripReturnMin d none 1380 60 0 0 / 1440 = d + 1 := by
  refine ⟨?_, ?_, ?_⟩
  · intro h
    rw [tripReturnMin_div]
    rcases h with h | h <;> subst h <;> simp [returnDayOf]
  · intro o h ho
    subst h
    rw [tripReturnMin_div]
    simp [returnDayOf, ho]
  · have h1 : apply_time_deviation 1380 0 = 1380 := by decide
    have h2 : apply_time_deviation 60 0 = 60 := by decide
    rw [tripReturnMin_div, h1, h2]
    simp [returnDayOf]

/-- Witness for C8: a same-day return and a two-night multi-day return. -/
theorem C8_return_day_witness :
    tripReturnMin 5 none 1000 1100 0 0 / 1440 = 5 ∧
    tripReturnMin 5 (some 3) 0 0 0 0 / 1440 = 5 + 3 := by
  constructor
  · rw [(C8_return_day 5 none 1000 1100 0 0).1 (Or.inl rfl)]
    decide
  · exact (C8_return_day 5 (some 3) 0 0 0 0).2.1 3 rfl (by decide)

/-- C10: `apply_time_deviation` is total and returns `base + offset` modulo
24 hours, and the departure timestamp combines that wrapped clock time with
the *unshifted* calendar day: the row day of the departure is always the
trip's own day, so a deviation crossing midnight (00:10 with offset −30
minutes) lands at minute 1420 (23:40) of the *same* calendar day. -/
theorem C10_midnight_wrap (base : ℕ) (dev : ℤ) (d : ℕ) :
    (apply_time_deviation base dev : ℤ) = ((base : ℤ) + dev) % 1440 ∧
    tripLeaveMin d base dev / 1440 = d ∧
    tripLeaveMin d base dev % 1440 = apply_time_deviation base dev ∧
    tripLeaveMin d 10 (-30) = d * 1440 + 1420 := by
  have hlt := apply_time_deviation_lt base dev
  refine ⟨?_, ?_, ?_, ?_⟩
  · unfold apply_time_deviation
    exact Int.toNat_of_nonneg (Int.emod_nonneg _ (by norm_num))
  · unfold tripLeaveMin
    omega
  · unfold tripLeaveMin
    omega
  · have h1420 : apply_time_deviation 10 (-30) = 1420 := by decide
    unfold tripLeaveMin
    rw [h1420]

/-! ## Where the capacity clamp happens -/

theorem foldl_pred {α β : Type _} (P : β → Prop) (f : β → α → β) :
    ∀ (l : List α), (∀ b a, a ∈ l → P b → P (f b a)) →
      ∀ b, P b → P (l.foldl f b) := by
  intro l
  induction l with
  | nil => intro _ b hb; simpa using hb
  | cons a t IH =>
      intro hf b hb
      simp only [List.foldl_cons]
      exact IH (fun b1 a1 ha1 => hf b1 a1 (List.mem_cons_of_mem a ha1))
        (f b a) (hf b a (List.mem_cons_self a t) hb)

theorem buildRaw_cap_nonneg (cfg : List VehicleGroup) (y s st0 r : ℕ) :
    0 ≤ ((buildRawTable cfg y s st0).1).cap r := by
  rcases List.eq_nil_or_concat cfg with h | ⟨gs, g, h⟩
  · subst h
    simp [buildRawTable, initCols]
  · subst h
    unfold buildRawTable
    rw [List.concat_eq_append, List.foldl_append]
    simp only [List.foldl_cons, List.foldl_nil, processGroup, clipLower0]
    exact le_max_right _ _

/-- C3 (amended): the source clamps `available_capacity_kWh` at 0 *inside*
the group loop, after every group, not once at the end.  Consequently the
final capacity column is nonnegative at every row, and for a single vehicle
group the per-group clamp coincides with the spec's clamp-once-at-the-end
reading; with two or more groups the two disagree (see the
counterexample). -/
theorem C3_capacity_clamp_per_group (cfg : List VehicleGroup)
    (g : VehicleGroup) (y s st0 r : ℕ) :
    0 ≤ (build_cluster_timeseries cfg y s st0).cap r ∧
    (build_cluster_timeseries [g] y s st0).cap =
      buildCapacityClampedAtEnd [g] y s st0 := by
  constructor
  · simp only [build_cluster_timeseries]
    exact buildRaw_cap_nonneg cfg y s st0 r
  · funext i
    simp only [build_cluster_timeseries, buildRawTable,
      buildCapacityClampedAtEnd, List.foldl_cons, List.foldl_nil,
      processGroup, processGroupSpecNoClip]

/-- Counterexample for C3 as stated: with the two-day-trip group followed by
a stationary group, the built table's capacity at row 8 (January 9th 2001, a
Tuesday) is 5 — the first group's overshoot to −10 was already clamped to 0
before the stationary group added its 5 — while accumulating both groups
unclamped and flooring at 0 only at the end yields max(−10 + 5, 0) = 0. -/
theorem C3_capacity_clamp_counterexample :
    (build_cluster_timeseries [groupOverlapTrips, groupStationary5]
        2001 1440 0).cap 8 = 5 ∧
    buildCapacityClampedAtEnd [groupOverlapTrips, groupStationary5]
        2001 1440 0 8 = 0 ∧
    (build_cluster_timeseries [groupOverlapTrips, groupStationary5]
        2001 1440 0).cap 8 ≠
      buildCapacityClampedAtEnd [groupOverlapTrips, groupStationary5]
        2001 1440 0 8 := by
  have h1 : (build_cluster_timeseries [groupOverlapTrips, groupStationary5]
      2001 1440 0).cap 8 = 5 := by with_unfolding_all decide
  have h2 : buildCapacityClampedAtEnd [groupOverlapTrips, groupStationary5]
      2001 1440 0 8 = 0 := by with_unfolding_all decide
  refine ⟨h1, h2, ?_⟩
  rw [h1, h2]
  norm_num

/-! ## Zero capacity on the boundary days -/

theorem dayMask_unique (s d d1 r : ℕ) (hs : 0 < s)
    (h1 : dayMask s d r = true) (h2 : dayMask s d1 r = true) : d = d1 := by
  simp only [dayMask, decide_eq_true_eq] at h1 h2
  obtain ⟨m, hm⟩ : ∃ m, r * s = m := ⟨r * s, rfl⟩
  rw [hm] at h1 h2
  omega

theorem updCol_sub_nonpos (P : ℕ → Bool) (a : ℚ) (col : ℕ → ℚ) (r : ℕ)
    (ha : 0 ≤ a) (h : col r ≤ 0) :
    updCol P (fun x => x - a) col r ≤ 0 := by
  simp only [updCol]
  split
  · linarith
  · exact h

theorem ite_col_nonpos (B : Prop) [Decidable B] (f g : ℕ → ℚ) (r : ℕ)
    (hf : f r ≤ 0) (hg : g r ≤ 0) : (if B then f else g) r ≤ 0 := by
  split
  · exact hf
  · exact hg

theorem vehicleTripStep_cap_nonpos (y s d : ℕ) (offset : Option ℕ)
    (km vcap cons : ℚ) (ab rk : ℕ) (devL devR : ℤ) (c : Cols) (r : ℕ)
    (hv : 0 ≤ vcap) (hc : c.cap r ≤ 0) :
    (vehicleTripStep y s d offset km vcap cons ab rk devL devR c).cap r ≤ 0 := by
  simp only [vehicleTripStep]
  split
  · exact hc
  · exact ite_col_nonpos _ _ _ r (updCol_sub_nonpos _ vcap c.cap r hv hc) hc

theorem handleTripDay_cap_nonpos (y s d : ℕ) (offset : Option ℕ) (km : ℚ)
    (ab rk : ℕ) (g : VehicleGroup) (c : Cols) (st r : ℕ)
    (hga : 0 ≤ g.akkuKapazitaet) (hc : c.cap r ≤ 0) :
    ((handleTripDay y s d offset km ab rk g c st).1).cap r ≤ 0 := by
  simp only [handleTripDay]
  refine foldl_pred (fun cc : Cols => cc.cap r ≤ 0) _ _ ?_ c hc
  intro cc i _ hcc
  exact vehicleTripStep_cap_nonpos y s d offset km g.akkuKapazitaet
    g.verbrauch ab rk _ _ cc r hga hcc

theorem processEntry_eq_mehr (y s : ℕ) (g : VehicleGroup) (d : ℕ)
    (c : Cols) (st : ℕ) (km : ℚ) (ab rk o : ℕ)
    (h : (g.wochenplan (weekdayOfDay y d)).getD DayEntry.steht =
      DayEntry.mehrtagstour km ab rk o) :
    processEntry y s g d c st =
      handleTripDay y s d (some o) km ab rk g c st := by
  unfold processEntry
  rw [h]

theorem processEntry_cap_nonpos (y s : ℕ) (g : VehicleGroup) (d : ℕ)
    (c : Cols) (st r : ℕ) (hga : 0 ≤ g.akkuKapazitaet) (hc : c.cap r ≤ 0) :
    ((processEntry y s g d c st).1).cap r ≤ 0 := by
  rcases hE : (g.wochenplan (weekdayOfDay y d)).getD DayEntry.steht with
    _ | _ | ⟨km, ab, rk⟩ | ⟨km, ab, rk, o⟩
  · rw [processEntry_eq_steht y s g d c st hE]
    exact hc
  · rw [processEntry_eq_nicht y s g d c st hE]
    show updCol (dayMask s d) (fun x => x - g.akkuKapazitaet * g.anzahl)
      c.cap r ≤ 0
    exact updCol_sub_nonpos _ _ c.cap r
      (mul_nonneg hga (Nat.cast_nonneg _)) hc
  · rw [processEntry_eq_tour y s g d c st km ab rk hE]
    exact handleTripDay_cap_nonpos y s d none km ab rk g c st r hga hc
  · rw [processEntry_eq_mehr y s g d c st km ab rk o hE]
    exact handleTripDay_cap_nonpos y s d (some o) km ab rk g c st r hga hc

theorem entriesPhase_cap_nonpos (y s : ℕ) (g : VehicleGroup) (c : Cols)
    (st r : ℕ) (hga : 0 ≤ g.akkuKapazitaet) (hc : c.cap r ≤ 0) :
    ((entriesPhase y s g c st).1).cap r ≤ 0 := by
  unfold entriesPhase
  refine foldl_pred (fun p : Cols × ℕ => p.1.cap r ≤ 0) _ _ ?_ (c, st) hc
  intro p d1 _ hp
  show (if d1 ∈ exclusionDays y then p
      else processEntry y s g d1 p.1 p.2).1.cap r ≤ 0
  split
  · exact hp
  · exact processEntry_cap_nonpos y s g d1 p.1 p.2 r hga hp

theorem addCapacityPhase_excluded (y s : ℕ) (g : VehicleGroup)
    (col : ℕ → ℚ) (d r : ℕ) (hs : 0 < s) (hd : d ∈ exclusionDays y)
    (hr : dayMask s d r = true) :
    addCapacityPhase y s g col r = col r := by
  unfold addCapacityPhase
  refine foldl_pred (fun col1 : ℕ → ℚ => col1 r = col r) _ _ ?_ col rfl
  intro col1 d1 _ hcol1
  show (if d1 ∈ exclusionDays y then col1
      else updCol (dayMask s d1)
        (fun x => x + g.akkuKapazitaet * g.anzahl) col1) r = col r
  split
  · exact hcol1
  · next hd1 =>
      have hm : dayMask s d1 r = false := by
        by_contra hmm
        rw [Bool.not_eq_false] at hmm
        have heq : d = d1 := dayMask_unique s d d1 r hs hr hmm
        rw [← heq] at hd1
        exact hd1 hd
      simp [updCol, hm, hcol1]

theorem processGroup_cap_excluded (y s : ℕ) (g : VehicleGroup)
    (p : Cols × ℕ) (d r : ℕ) (hs : 0 < s) (hga : 0 ≤ g.akkuKapazitaet)
    (hd : d ∈ exclusionDays y) (hr : dayMask s d r = true)
    (hp : p.1.cap r = 0) :
    ((processGroup y s p g).1).cap r = 0 := by
  simp only [processGroup]
  have h1 : ({ p.1 with
      cap := addCapacityPhase y s g p.1.cap } : Cols).cap r ≤ 0 := by
    show addCapacityPhase y s g p.1.cap r ≤ 0
    rw [addCapacityPhase_excluded y s g p.1.cap d r hs hd hr]
    exact le_of_eq hp
  have h2 := entriesPhase_cap_nonpos y s g _ p.2 r hga h1
  show clipLower0
      ((entriesPhase y s g { p.1 with cap := addCapacityPhase y s g p.1.cap }
        p.2).1.cap) r = 0
  unfold clipLower0
  exact max_eq_right h2

theorem buildRaw_cap_excluded (cfg : List VehicleGroup) (y s st0 d r : ℕ)
    (hs : 0 < s) (hcap : ∀ g ∈ cfg, 0 ≤ g.akkuKapazitaet)
    (hd : d ∈ exclusionDays y) (hr : dayMask s d r = true) :
    ((buildRawTable cfg y s st0).1).cap r = 0 := by
  unfold buildRawTable
  refine foldl_pred (fun p : Cols × ℕ => p.1.cap r = 0) _ _ ?_
    (initCols, st0) rfl
  intro p g hg hp
  exact processGroup_cap_excluded y s g p d r hs (hcap g hg) hd hr hp

/-- C9: in the finished table, every row lying inside one of the four
boundary days (January 1st and 2nd, December 30th and 31st of the target
year) has available capacity exactly 0, for every list of vehicle groups
with nonnegative battery capacities and every weekly plan — including
multi-day trips from non-excluded days whose absence interval overlaps the
boundary days, whose subtraction there is undone by the capacity clamp. -/
theorem C9_exclusion_rows_zero (cfg : List VehicleGroup) (y s st0 d r : ℕ)
    (hs : 0 < s) (hcap : ∀ g ∈ cfg, 0 ≤ g.akkuKapazitaet)
    (hd : d ∈ exclusionDays y) (hr : dayMask s d r = true) :
    (build_cluster_timeseries cfg y s st0).cap r = 0 := by
  simp only [build_cluster_timeseries]
  exact buildRaw_cap_excluded cfg y s st0 d r hs hcap hd hr

/-- Witness for C9: the all-stationary two-vehicle group on January 1st
2001. -/
theorem C9_exclusion_rows_zero_witness :
    (build_cluster_timeseries [groupStationary50x2] 2001 1440 0).cap 0 = 0 :=
  C9_exclusion_rows_zero [groupStationary50x2] 2001 1440 0 0 0 (by decide)
    (by
      intro g hg
      rw [List.mem_singleton] at hg
      subst hg
      norm_num [groupStationary50x2])
    (by decide) (by decide)

end TopLIS
